import Mathlib

set_option linter.unusedVariables false
set_option linter.unnecessarySeqFocus false

/-!
A shallow embedding of the command-line parser in
`src/easyterm/commandlineopt.py` (function `command_line_options` and its
helper `match_any_word`), together with proofs checking the repository's
specification against it.

Modelling conventions:
* Python dicts are insertion-ordered association lists with unique keys;
  `dget`/`dset`/`dmem` mirror `__getitem__` (the `CommandLineOptions`
  variant that returns `None` on a missing key), item assignment and `in`.
* A Python `float` value is represented by its literal token: the parser
  performs no float arithmetic, it only checks that `float(tok)` succeeds
  and stores the value, so only castability and truthiness matter.
* `re.search` (used by `match_any_word`) is abstracted as a parameter
  `research ignoreCase pattern s`.
* `CommandLineError` raises and the `sys.exit()` taken on a truthy help
  flag are modelled by `Except` and by the `exited` flag of `Outcome`;
  text written via `write` is tracked by the `printedHelp`/`printedOpt`
  flags, and `warnings.warn` calls by a list of structured warnings.
-/

namespace Easyterm

/-- The accepted Python value types of `default_opt` entries
(`CommandLineOptions.accepted_option_types`): bool, int, float, str and
list of str.  A float is carried as its literal token (see module note). -/
inductive Value
  | bool (b : Bool)
  | int (n : Int)
  | float (tok : String)
  | str (s : String)
  | list (xs : List String)
deriving DecidableEq

/-- The five Python types a schema value can have. -/
inductive PyTy
  | bool | int | float | str | list
deriving DecidableEq

/-- `type(v)` for a schema/option value. -/
def tyOf : Value → PyTy
  | .bool _ => .bool
  | .int _ => .int
  | .float _ => .float
  | .str _ => .str
  | .list _ => .list

/-- A Python dict from option keys to values (insertion-ordered). -/
abbrev Dict := List (String × Value)

/-- A Python dict from synonym keys to canonical keys. -/
abbrev SynDict := List (String × String)

/-- Dict lookup returning `none` when the key is absent (this is both
plain lookup on present keys and `CommandLineOptions.__getitem__`). -/
def dget : Dict → String → Option Value
  | [], _ => none
  | p :: rest, k => if p.1 = k then some p.2 else dget rest k

/-- Python `k in d`. -/
def dmem (d : Dict) (k : String) : Bool := (dget d k).isSome

/-- Python `d[k] = v`: replace in place when present, append when absent. -/
def dset (d : Dict) (k : String) (v : Value) : Dict :=
  if dmem d k then d.map (fun p => if p.1 = k then (p.1, v) else p)
  else d ++ [(k, v)]

/-- The keys of a dict, in insertion order. -/
def dkeys (d : Dict) : List String := d.map (fun p => p.1)

/-- Lookup in a synonym dict. -/
def sget : SynDict → String → Option String
  | [], _ => none
  | p :: rest, k => if p.1 = k then some p.2 else sget rest k

/-- Python `d[k] = v` on a synonym dict. -/
def sset (d : SynDict) (k v : String) : SynDict :=
  if (sget d k).isSome then d.map (fun p => if p.1 = k then (p.1, v) else p)
  else d ++ [(k, v)]

/-- Number of maximal whitespace-free runs: `len(bit.split())`. -/
def wordCountAux : List Char → Bool → Nat
  | [], _ => 0
  | c :: rest, inWord =>
    if c.isWhitespace then wordCountAux rest false
    else (if inWord then 0 else 1) + wordCountAux rest true

/-- `len(s.split())` for Python whitespace splitting. -/
def wordCount (l : List Char) : Nat := wordCountAux l false

/-- A token is an option marker iff it starts with a dash, has no internal
whitespace (`len(bit.split())==1`), has length more than 1 and its second
character is an ASCII letter (lines 182-184 of the source). -/
def isMarker (bit : String) : Bool :=
  match bit.data with
  | '-' :: c :: _ => c.isAlpha && wordCount bit.data == 1
  | _ => false

/-- `bit.lstrip('-')`. -/
def lstripDash (s : String) : String := ⟨s.data.dropWhile (fun c => decide (c = '-'))⟩

/-- The ordered indices of the option markers in the token sequence
(`opt_key_indices`). -/
def markerIndices (args : List String) : List Nat :=
  (args.enum.filter (fun p => isMarker p.2)).map (fun p => p.1)

/-- Python slice `l[a:b]` (`b = none` meaning to the end); indices here are
always nonnegative, and Python slices clamp exactly like `take`/`drop`. -/
def pySlice (l : List String) (a : Nat) : Option Nat → List String
  | none => l.drop a
  | some b => (l.take b).drop a

/-- `l[i]` for the in-range indices this parser uses (a plain wrapper
keeping index accesses stable under simplification). -/
def pyAt (l : List String) (i : Nat) : String := l.getD i ""

/-- Python `l.insert(i, x)` for the indices (always at most `l.length`)
used by positional normalization. -/
def pyInsert (l : List String) (i : Nat) (x : String) : List String :=
  l.take i ++ x :: l.drop i

/-- Numeric value of a decimal digit character. -/
def digitVal (c : Char) : Nat := c.toNat - '0'.toNat

/-- Decimal value of a digit string. -/
def digitsToNat (l : List Char) : Nat := l.foldl (fun a c => a * 10 + digitVal c) 0

/-- Strip leading and trailing whitespace. -/
def stripWS (l : List Char) : List Char :=
  ((l.dropWhile Char.isWhitespace).reverse.dropWhile Char.isWhitespace).reverse

/-- Python `int(s)` on the strings this parser can meet: optional
surrounding whitespace, an optional sign, then decimal digits;
anything else raises `ValueError` (`none`). -/
def pyIntCast (s : String) : Option Int :=
  match stripWS s.data with
  | '-' :: ds => if ds ≠ [] ∧ ds.all Char.isDigit then some (-(digitsToNat ds : Int)) else none
  | '+' :: ds => if ds ≠ [] ∧ ds.all Char.isDigit then some (digitsToNat ds : Int) else none
  | ds => if ds ≠ [] ∧ ds.all Char.isDigit then some (digitsToNat ds : Int) else none

/-- Split a char list at the first exponent mark `e`/`E`. -/
def splitOnExp : List Char → List Char × Option (List Char)
  | [] => ([], none)
  | c :: rest =>
    if c = 'e' ∨ c = 'E' then ([], some rest)
    else
      let r := splitOnExp rest
      (c :: r.1, r.2)

/-- A valid float mantissa: `digits`, `digits.`, `digits.digits` or `.digits`. -/
def isMantissa (l : List Char) : Bool :=
  match l.dropWhile Char.isDigit with
  | [] => !(l.takeWhile Char.isDigit).isEmpty
  | '.' :: fs =>
    fs.all Char.isDigit && (!(l.takeWhile Char.isDigit).isEmpty || !fs.isEmpty)
  | _ => false

/-- A valid float exponent part: optional sign then nonempty digits. -/
def isExpPart (l : List Char) : Bool :=
  match l with
  | '+' :: ds => !ds.isEmpty && ds.all Char.isDigit
  | '-' :: ds => !ds.isEmpty && ds.all Char.isDigit
  | ds => !ds.isEmpty && ds.all Char.isDigit

/-- Drop one optional leading sign. -/
def dropSign : List Char → List Char
  | '+' :: r => r
  | '-' :: r => r
  | r => r

/-- The special float literals `inf`, `infinity`, `nan` (case-insensitive). -/
def isInfNan (l : List Char) : Bool :=
  let w := l.map Char.toLower
  w == "inf".data || w == "infinity".data || w == "nan".data

/-- Whether `float(s)` succeeds in Python (ASCII decimal grammar:
optional whitespace and sign, mantissa with optional fraction and
exponent, or inf/nan). -/
def isFloatLit (s : String) : Bool :=
  let t := dropSign (stripWS s.data)
  if isInfNan t then true
  else
    match (splitOnExp t).2 with
    | none => isMantissa (splitOnExp t).1
    | some e => isMantissa (splitOnExp t).1 && isExpPart e

/-- Whether the mantissa has a nonzero digit. -/
def mantissaNonzero (l : List Char) : Bool := l.any (fun c => c.isDigit && decide (c ≠ '0'))

/-- Truthiness of the Python float denoted by a literal token
(`0.0` in any spelling is falsy, everything else truthy). -/
def pyFloatTruthy (s : String) : Bool :=
  let t := dropSign (stripWS s.data)
  if isInfNan t then true else mantissaNonzero (splitOnExp t).1

/-- Python truthiness of an option value. -/
def pyTruthy : Value → Bool
  | .bool b => b
  | .int n => decide (n ≠ 0)
  | .float tok => pyFloatTruthy tok
  | .str s => decide (s ≠ "")
  | .list xs => decide (xs ≠ [])

/-- The decimal digit characters. -/
def digitChar : Nat → Char
  | 0 => '0' | 1 => '1' | 2 => '2' | 3 => '3' | 4 => '4'
  | 5 => '5' | 6 => '6' | 7 => '7' | 8 => '8' | 9 => '9'
  | _ => '0'

/-- Decimal digit list of a natural number (fuel-structured so that it
reduces definitionally; the fuel `n+1` always suffices). -/
def natToDigitsAux : Nat → Nat → List Char
  | 0, _ => []
  | fuel+1, n =>
    if n < 10 then [digitChar n]
    else natToDigitsAux fuel (n / 10) ++ [digitChar (n % 10)]

/-- Python `str(n)` for a natural number. -/
def natToken (n : Nat) : String := ⟨natToDigitsAux (n+1) n⟩

/-- Python `str(n)` for an int. -/
def intToToken : Int → String
  | .ofNat n => natToken n
  | .negSucc m => "-" ++ natToken (m+1)

/-- The literal command-line token denoting a scalar value (`str(v)`,
except that a boolean is written in the `0`/`1` form this parser accepts). -/
def tokenOfValue : Value → String
  | .bool b => if b then "1" else "0"
  | .int n => intToToken n
  | .float tok => tok
  | .str s => s
  | .list _ => ""

/-- The canonical token sequence `-k1 v1 -k2 v2 ...` denoting an
assignment of scalar values to option keys. -/
def buildTokens : List (String × Value) → List String
  | [] => []
  | p :: rest => ("-" ++ p.1) :: tokenOfValue p.2 :: buildTokens rest

/-- Structured content of a `warnings.warn` call. -/
inductive Warning
  | extraArg (tokens : List String)
  | unexpectedOpt (key : String)
deriving DecidableEq

/-- The abnormal terminations of `command_line_options`:
`CommandLineError` raises (first seven constructors, tagged by message),
the `NameError` latent at the advanced-help line, and the `TypeError`
latent in `opt['h'] in advanced_help_msg` for an unhashable (list) value. -/
inductive PErr
  | badPositionalKeys (ks : List String)
  | bothBeforeAfter
  | extraArg (tokens : List String)
  | unexpectedOpt (key : String)
  | missingArg (key : String)
  | boolBadValue (key tok : String)
  | castFail (key tok : String)
  | nameErr
  | unhashableErr
deriving DecidableEq

/-- Where positional arguments were found (`positionals` being
`None`, `'before'` or `'after'`). -/
inductive PosWhere
  | noPos | before | after
deriving DecidableEq

/-- The positional region: which side, `from_here` and `up_to`. -/
structure Region where
  whereAt : PosWhere
  fromHere : Nat
  upTo : Option Nat
deriving DecidableEq

/-- `type(d[k]) is list`, with a missing key giving `None` (never a list). -/
def isListTy : Option Value → Bool
  | some (.list _) => true
  | _ => false

/-- `type(d[k]) is bool`, with a missing key giving `None` (never a bool). -/
def isBoolTy : Option Value → Bool
  | some (.bool _) => true
  | _ => false

/-- Everything the function returns or effects on a successful run:
the resulting mapping, the warnings emitted, whether the help text and the
option dump were written, and whether `sys.exit()` was taken (in which
case the Python function never actually returns its mapping). -/
structure Outcome where
  opt : Dict
  warnings : List Warning
  printedHelp : Bool
  printedOpt : Bool
  exited : Bool
deriving DecidableEq

/-- Error propagation through the stages: a raised `CommandLineError`
aborts the call (plumbing for the `Except`-monad of this embedding). -/
def bindE {A B : Type} (x : Except PErr A) (f : A → Except PErr B) : Except PErr B :=
  match x with
  | .error e => .error e
  | .ok a => f a

/-- Lines 157-159: insert a builtin boolean key defaulting to false if absent. -/
def addBuiltin (d : Dict) (k : String) : Dict :=
  if dmem d k then d else dset d k (.bool false)

/-- The schema after the builtin keys `h` and `print_opt` are ensured. -/
def builtinDefaults (d : Dict) : Dict :=
  addBuiltin (addBuiltin d "h") "print_opt"

/-- Line 163, `synonyms['help']='h'`: this is the state of the caller's
synonym dict from that point on (the dict is mutated in place). -/
def synonymsAfter (syn : SynDict) : SynDict := sset syn "help" "h"

/-- Lines 187-211: locate the positional region.  The before region exists
when the sequence is nonempty and does not start with a marker; the after
region exists when at least two tokens follow the last marker and the last
marker's raw key is not list-typed in the schema; both existing at once is
fatal. -/
def computeRegion (schema : Dict) (args : List String) (kis : List Nat) :
    Except PErr Region :=
  if args.length ≠ 0 ∧ kis ≠ [] then
    if kis.getLastD 0 + 2 < args.length ∧
        isListTy (dget schema (lstripDash (pyAt args (kis.getLastD 0)))) = false then
      if args.length ≠ 0 ∧ kis.head? ≠ some 0 then .error .bothBeforeAfter
      else
        .ok { whereAt := .after
              fromHere :=
                if isBoolTy (dget schema (lstripDash (pyAt args (kis.getLastD 0)))) then
                  if args.length > kis.getLastD 0 + 1 ∧
                      (pyAt args (kis.getLastD 0 + 1) = "0"
                        ∨ pyAt args (kis.getLastD 0 + 1) = "1") then
                    kis.getLastD 0 + 2
                  else kis.getLastD 0 + 1
                else kis.getLastD 0 + 2
              upTo := none }
    else if args.length ≠ 0 ∧ kis.head? ≠ some 0 then
      .ok { whereAt := .before, fromHere := 0, upTo := kis.head? }
    else .ok { whereAt := .noPos, fromHere := 0, upTo := none }
  else if args.length ≠ 0 ∧ kis.head? ≠ some 0 then
    .ok { whereAt := .before, fromHere := 0, upTo := kis.head? }
  else .ok { whereAt := .noPos, fromHere := 0, upTo := none }

/-- Lines 218-229: walk the positional region, pairing each token (by its
index in `args`) with the next positional key; overflowing the key list
warns and stops when extras are tolerated and is fatal otherwise, and a
list-typed positional key stops the walk after itself. -/
def collectAux (schema : Dict) (te : Bool) (posKeys : List String)
    (args : List String) (fromHere : Nat) (upTo : Option Nat) :
    List String → Nat → Except PErr (List (Nat × String) × List Warning)
  | [], _ => .ok ([], [])
  | _ :: rest, i =>
    if posKeys.length < i + 1 then
      if te then .ok ([], [.extraArg (pySlice args (fromHere+1) upTo)])
      else .error (.extraArg (pySlice args (fromHere+i) upTo))
    else
      let pk := pyAt posKeys i
      if isListTy (dget schema pk) then .ok ([(fromHere + i, pk)], [])
      else
        bindE (collectAux schema te posKeys args fromHere upTo rest (i+1))
          (fun pr => .ok ((fromHere + i, pk) :: pr.1, pr.2))

/-- The `insert_these` pairs for the whole positional region. -/
def collectInserts (schema : Dict) (te : Bool) (posKeys : List String)
    (args : List String) (fromHere : Nat) (upTo : Option Nat) :
    Except PErr (List (Nat × String) × List Warning) :=
  collectAux schema te posKeys args fromHere upTo (pySlice args fromHere upTo) 0

/-- Lines 231-232: insert the implied `-key` markers, highest index first. -/
def applyInserts (args : List String) (ins : List (Nat × String)) : List String :=
  ins.reverse.foldl (fun acc p => pyInsert acc p.1 ("-" ++ p.2)) args

/-- The positional-normalization phase: compute the region and, when one
exists, rewrite the token sequence with explicit markers. -/
def normalizeArgs (schema : Dict) (te : Bool) (posKeys : List String)
    (args : List String) : Except PErr (List String × List Warning) :=
  bindE (computeRegion schema args (markerIndices args)) (fun r =>
    if r.whereAt ≠ PosWhere.noPos then
      bindE (collectInserts schema te posKeys args r.fromHere r.upTo)
        (fun pr => .ok (applyInserts args pr.1, pr.2))
    else .ok (args, []))

/-- Lines 252-255: the canonical key of a marker token, one synonym step. -/
def resolveKey (syn : SynDict) (bit : String) : String :=
  let k := lstripDash bit
  match sget syn k with
  | some c => c
  | none => k

/-- Whether the first list is a leading segment of the second. -/
def leadsChars : List Char → List Char → Bool
  | [], _ => true
  | _ :: _, [] => false
  | a :: as, b :: bs => a == b && leadsChars as bs

/-- Python substring test `needle in hay`. -/
def isSubstr (needle : List Char) : List Char → Bool
  | [] => needle.isEmpty
  | c :: rest => leadsChars needle (c :: rest) || isSubstr needle rest

/-- The helper `match_any_word` (lines 323-334); `research` abstracts
`re.search` on a compiled pattern, with its ignore-case flag. -/
def match_any_word (research : Bool → String → String → Bool)
    (main_string : String) (word_list : List String)
    (is_pattern : Bool) (ignore_case : Bool) : Bool :=
  word_list.any (fun w =>
    if is_pattern then research ignore_case w main_string
    else if ignore_case then
      isSubstr w.toLower.data main_string.toLower.data
    else isSubstr w.data main_string.data)

/-- The canonical keys named by the markers of `kis`. -/
def resolvedKeys (syn : SynDict) (args : List String) (kis : List Nat) : List String :=
  kis.map (fun i => resolveKey syn (pyAt args i))

/-- A concrete stand-in for the abstract `re.search` parameter, used by
the witnesses: a pattern that never matches. -/
def noMatchSearch : Bool → String → String → Bool := fun _ _ _ => false

/-- The no-argument test of lines 276-277: the next token is itself the
next marker, or the marker is the last token of the sequence. -/
def noArgAt (args : List String) (i : Nat) (nextKi : Option Nat) : Prop :=
  nextKi = some (i+1) ∨ (nextKi = none ∧ args.length = i + 1)

instance (args : List String) (i : Nat) (nextKi : Option Nat) :
    Decidable (noArgAt args i nextKi) := by
  unfold noArgAt; infer_instance

/-- Lines 274-301: extract the value for key `k` whose marker sits at
index `i`, given the expected type (`none` for a tolerated unknown key;
lines 285-286 cast such a key's argument with `str`, which the final
catch-all arm performs). -/
def extractValue (args : List String) (i : Nat) (nextKi : Option Nat)
    (k : String) (ety : Option PyTy) : Except PErr Value :=
  if ety ≠ some .list then
    if noArgAt args i nextKi then
      if ety = some .bool ∨ ety = none then .ok (.bool true)
      else .error (.missingArg k)
    else
      if ety = some .bool then
        if pyAt args (i+1) = "1" then .ok (.bool true)
        else if pyAt args (i+1) = "0" then .ok (.bool false)
        else .error (.boolBadValue k (pyAt args (i+1)))
      else
        match ety with
        | some .int =>
          match pyIntCast (pyAt args (i+1)) with
          | some n => .ok (.int n)
          | none => .error (.castFail k (pyAt args (i+1)))
        | some .float =>
          if isFloatLit (pyAt args (i+1)) then .ok (.float (pyAt args (i+1)))
          else .error (.castFail k (pyAt args (i+1)))
        | _ => .ok (.str (pyAt args (i+1)))
  else .ok (.list (pySlice args (i+1) (some (nextKi.getD args.length))))

/-- Lines 252-302 for one marker: resolve the key, apply the unknown-key
policy, extract the value; returns the canonical key, the value and the
warnings this step emitted. -/
def stepOption (research : Bool → String → String → Bool) (schema : Dict)
    (syn : SynDict) (te : Bool) (tolre : List String) (we : Bool)
    (args : List String) (i : Nat) (nextKi : Option Nat) :
    Except PErr (String × Value × List Warning) :=
  let k := resolveKey syn (pyAt args i)
  if dmem schema k then
    bindE (extractValue args i nextKi k (some (tyOf ((dget schema k).getD (.bool false)))))
      (fun v => .ok (k, v, []))
  else
    if te || (decide (tolre.length > 0) && match_any_word research k tolre true false) then
      bindE (extractValue args i nextKi k none)
        (fun v => .ok (k, v, if we then [.unexpectedOpt k] else []))
    else .error (.unexpectedOpt k)

/-- Lines 242-250: gap detection between the previous marker (and its one
consumed value slot) and the current one; `prev` carries the previous
marker index and its canonical key. -/
def gapExtra (schema : Dict) (te : Bool) (args : List String)
    (prev : Option (Nat × String)) (i : Nat) : Except PErr (List Warning) :=
  match prev with
  | none => .ok []
  | some (p, pk) =>
    if p + 1 < i - 1 ∧ isListTy (dget schema pk) = false then
      if te then .ok [.extraArg (pySlice args (p+2) (some i))]
      else .error (.extraArg (pySlice args (p+2) (some i)))
    else .ok []

/-- The main pass (lines 241-302), one marker at a time. -/
def mainPassAux (research : Bool → String → String → Bool) (schema : Dict)
    (syn : SynDict) (te : Bool) (tolre : List String) (we : Bool)
    (args : List String) :
    Option (Nat × String) → Dict → List Warning → List Nat →
    Except PErr (Dict × List Warning)
  | _, opt, ws, [] => .ok (opt, ws)
  | prev, opt, ws, i :: rest =>
    bindE (gapExtra schema te args prev i) (fun gw =>
      bindE (stepOption research schema syn te tolre we args i rest.head?) (fun r =>
        mainPassAux research schema syn te tolre we args
          (some (i, r.1)) (dset opt r.1 r.2.1) (ws ++ gw ++ r.2.2) rest))

/-- `copy.copy` on an option value: a shallow copy; for a list of strings
this is a fresh list with the same (immutable) elements, hence the same
value. -/
def pycopy : Value → Value
  | .list xs => .list xs
  | v => v

/-- Lines 305-307: give every schema key not yet present a copy of its
default, in schema insertion order. -/
def fillDefaults (schema : Dict) (opt : Dict) : Dict :=
  match schema with
  | [] => opt
  | p :: rest =>
    fillDefaults rest (if dmem opt p.1 then opt else dset opt p.1 (pycopy p.2))

/-- Truthiness of `opt[k]` under `CommandLineOptions.__getitem__`
(a missing key reads as `None`, which is falsy). -/
def truthyAt (o : Dict) (k : String) : Bool :=
  match dget o k with
  | some v => pyTruthy v
  | none => false

/-- Lines 309-319: write the help message and exit when the help value is
truthy; the advanced-help lookup `opt['h'] in advanced_help_msg` can only
match a string value (and would then hit the undefined name `advanced`,
a `NameError`; a list value is unhashable, a `TypeError`); a truthy
`print_opt` writes the mapping. -/
def postProcess (adv : List (String × String)) (opt : Dict) :
    Except PErr Outcome :=
  if truthyAt opt "h" then
    if adv = [] then
      .ok { opt := opt, warnings := [], printedHelp := true
            printedOpt := truthyAt opt "print_opt", exited := true }
    else
      match dget opt "h" with
      | some (.list _) => .error .unhashableErr
      | some (.str s) =>
        if adv.any (fun p => decide (p.1 = s)) then .error .nameErr
        else
          .ok { opt := opt, warnings := [], printedHelp := true
                printedOpt := truthyAt opt "print_opt", exited := true }
      | _ =>
        .ok { opt := opt, warnings := [], printedHelp := true
              printedOpt := truthyAt opt "print_opt", exited := true }
  else
    .ok { opt := opt, warnings := [], printedHelp := false
          printedOpt := truthyAt opt "print_opt", exited := false }

/-- The whole of `command_line_options` (lines 66-321).  `research`
abstracts `re.search`; `arglist` is `sys.argv[1:]`; the `help_msg` text
has no control effect and is omitted.  Value-type validation of the
schema (lines 166-175) is vacuous here because `Value` can only carry the
five accepted types with string list elements. -/
def command_line_options (research : Bool → String → String → Bool)
    (default_opt : Dict) (positional_keys : List String) (synonyms : SynDict)
    (tolerate_extra : Bool) (tolerated_regexp : List String)
    (warning_extra : Bool) (advanced_help_msg : List (String × String))
    (arglist : List String) : Except PErr Outcome :=
  let schema := builtinDefaults default_opt
  let syn := synonymsAfter synonyms
  let missing := positional_keys.filter (fun pk => !dmem schema pk)
  if missing ≠ [] then .error (.badPositionalKeys missing)
  else
    bindE (normalizeArgs schema tolerate_extra positional_keys arglist) (fun pr =>
      bindE (mainPassAux research schema syn tolerate_extra tolerated_regexp
          warning_extra pr.1 none [] [] (markerIndices pr.1)) (fun pr2 =>
        bindE (postProcess advanced_help_msg (fillDefaults schema pr2.1)) (fun out =>
          .ok { out with warnings := pr.2 ++ pr2.2 })))

/-- The claim's per-marker success precondition, by expected type: the
argument token casts successfully and is present whenever the type
requires one (the conditions under which lines 274-298 raise nothing). -/
def argOKb (args : List String) (i : Nat) (nextKi : Option Nat) : PyTy → Bool
  | PyTy.bool => decide (noArgAt args i nextKi)
      || (pyAt args (i+1) == "1") || (pyAt args (i+1) == "0")
  | PyTy.int => !decide (noArgAt args i nextKi) && (pyIntCast (pyAt args (i+1))).isSome
  | PyTy.float => !decide (noArgAt args i nextKi) && isFloatLit (pyAt args (i+1))
  | PyTy.str => !decide (noArgAt args i nextKi)
  | PyTy.list => true

/-- The marker at index `i` resolves to a known key and its argument is
acceptable for that key's type. -/
def markerOK (schema : Dict) (syn : SynDict) (args : List String)
    (i : Nat) (nextKi : Option Nat) : Bool :=
  dmem schema (resolveKey syn (pyAt args i)) &&
    argOKb args i nextKi
      (tyOf ((dget schema (resolveKey syn (pyAt args i))).getD (.bool false)))

/-- The claim's whole-sequence preconditions over the marker chain: every
marker names a known key with a successfully-casting argument, and no
non-list option leaves a gap of unconsumed tokens before the next
marker (no extra arguments). -/
def chainOK (schema : Dict) (syn : SynDict) (args : List String) :
    List Nat → Option (Nat × String) → Bool
  | [], _ => true
  | i :: rest, prev =>
    (match prev with
     | none => true
     | some q => !decide (q.1 + 1 < i - 1) || isListTy (dget schema q.2)) &&
    markerOK schema syn args i rest.head? &&
    chainOK schema syn args rest (some (i, resolveKey syn (pyAt args i)))

instance {ε α : Type} [DecidableEq ε] [DecidableEq α] : DecidableEq (Except ε α) :=
  fun a b =>
    match a, b with
    | .ok x, .ok y =>
      if h : x = y then isTrue (by rw [h]) else isFalse (fun hc => h (by injection hc))
    | .error x, .error y =>
      if h : x = y then isTrue (by rw [h]) else isFalse (fun hc => h (by injection hc))
    | .ok _, .error _ => isFalse (fun hc => by injection hc)
    | .error _, .ok _ => isFalse (fun hc => by injection hc)

theorem bindE_ok {A B : Type} (a : A) (f : A → Except PErr B) :
    bindE (.ok a) f = f a := rfl

theorem bindE_error {A B : Type} (e : PErr) (f : A → Except PErr B) :
    bindE (.error e) f = .error e := rfl

/-! ### Dictionary lemmas -/

theorem dget_cons (p : String × Value) (d : Dict) (k : String) :
    dget (p :: d) k = if p.1 = k then some p.2 else dget d k := rfl

theorem dmem_cons (p : String × Value) (d : Dict) (k : String) :
    dmem (p :: d) k = (decide (p.1 = k) || dmem d k) := by
  by_cases h : p.1 = k <;> simp [dmem, dget_cons, h]

theorem dget_append (a b : Dict) (k : String) :
    dget (a ++ b) k = if dmem a k then dget a k else dget b k := by
  induction a with
  | nil => simp [dmem, dget]
  | cons p rest ih =>
    by_cases h : p.1 = k <;> simp [dmem, dget_cons, h] at ih ⊢ <;> exact ih

theorem dget_none_of_not_dmem {d : Dict} {k : String} (h : dmem d k = false) :
    dget d k = none := by
  unfold dmem at h
  cases hd : dget d k with
  | none => rfl
  | some v => rw [hd] at h; simp at h

theorem dget_mapSet (d : Dict) (k k' : String) (v : Value) :
    dget (d.map fun p => if p.1 = k then (p.1, v) else p) k'
      = if k' = k then (dget d k).map (fun _ => v) else dget d k' := by
  induction d with
  | nil => by_cases h : k' = k <;> simp [dget, h]
  | cons p rest ih =>
    by_cases hp : p.1 = k
    · by_cases hk : k' = k
      · simp [dget_cons, hp, hk, hp.trans hk.symm]
      · have h1 : p.1 ≠ k' := fun hc => hk (hc ▸ hp.symm ▸ rfl)
        have h2 : ¬ k = k' := fun hc => hk hc.symm
        simp [dget_cons, hp, hk, h1, h2, ih]
    · by_cases hpk : p.1 = k'
      · have hk : ¬ k' = k := fun hc => hp (hpk.symm ▸ hc)
        simp [dget_cons, hp, hpk, hk]
      · simp [dget_cons, hp, hpk, ih]

theorem dget_dset_self (d : Dict) (k : String) (v : Value) :
    dget (dset d k v) k = some v := by
  unfold dset
  by_cases h : dmem d k
  · rcases Option.isSome_iff_exists.mp h with ⟨w, hw⟩
    simp [h, dget_mapSet, hw]
  · simp only [h, Bool.false_eq_true, if_false]
    rw [dget_append, if_neg (by simp [h])]
    simp [dget]

theorem dget_dset_ne (d : Dict) (k k' : String) (v : Value) (h : k' ≠ k) :
    dget (dset d k v) k' = dget d k' := by
  unfold dset
  by_cases hm : dmem d k
  · simp [hm, dget_mapSet, h]
  · simp only [hm, Bool.false_eq_true, if_false]
    rw [dget_append]
    by_cases hk' : dmem d k'
    · simp [hk']
    · have h1 : dget d k' = none := dget_none_of_not_dmem (by simpa using hk')
      rw [if_neg (by simp [hk']), h1]
      have h2 : ¬ k = k' := fun hc => h hc.symm
      simp [dget, h2]

theorem dmem_dset (d : Dict) (k k' : String) (v : Value) :
    dmem (dset d k v) k' = (decide (k' = k) || dmem d k') := by
  by_cases h : k' = k
  · subst h; simp [dmem, dget_dset_self]
  · simp [dmem, dget_dset_ne d k k' v h, h]

theorem dkeys_dset (d : Dict) (k : String) (v : Value) :
    dkeys (dset d k v) = if dmem d k then dkeys d else dkeys d ++ [k] := by
  unfold dset
  by_cases h : dmem d k
  · simp only [h, if_true, dkeys, List.map_map]
    refine List.map_congr_left ?_
    intro p _
    by_cases hp : p.1 = k <;> simp [hp]
  · simp [h, dkeys]

theorem dmem_eq_mem_dkeys (d : Dict) (k : String) :
    dmem d k = decide (k ∈ dkeys d) := by
  induction d with
  | nil => simp [dmem, dget, dkeys]
  | cons p rest ih =>
    have hk : dkeys (p :: rest) = p.1 :: dkeys rest := rfl
    rw [dmem_cons, ih, hk]
    by_cases h : p.1 = k
    · simp [h]
    · have h2 : ¬ k = p.1 := fun hc => h hc.symm
      simp [h, h2]

theorem nodup_dkeys_dset (d : Dict) (k : String) (v : Value)
    (h : (dkeys d).Nodup) : (dkeys (dset d k v)).Nodup := by
  rw [dkeys_dset]
  by_cases hm : dmem d k
  · simpa [hm]
  · have hk : ¬ k ∈ dkeys d := by
      intro hc
      rw [dmem_eq_mem_dkeys] at hm
      simp [hc] at hm
    simp [hm, List.nodup_append, h, hk]

/-! ### Default fill-in lemmas -/

theorem fill_dget_of_dmem (s : Dict) (o : Dict) (k : String)
    (h : dmem o k = true) : dget (fillDefaults s o) k = dget o k := by
  induction s generalizing o with
  | nil => simp [fillDefaults]
  | cons p rest ih =>
    simp only [fillDefaults]
    by_cases hp : dmem o p.1
    · simp only [hp, if_true]; exact ih o h
    · simp only [hp, Bool.false_eq_true, if_false]
      have hne : k ≠ p.1 := fun hc => by rw [hc] at h; rw [h] at hp; exact hp rfl
      rw [ih _ (by simp [dmem_dset, h])]
      exact dget_dset_ne o p.1 k (pycopy p.2) hne

theorem fill_dmem (s : Dict) (o : Dict) (k : String) :
    dmem (fillDefaults s o) k = (dmem o k || dmem s k) := by
  induction s generalizing o with
  | nil => simp [fillDefaults, dmem, dget]
  | cons p rest ih =>
    simp only [fillDefaults, dmem_cons]
    by_cases hp : dmem o p.1
    · rw [if_pos hp, ih]
      by_cases hk : p.1 = k
      · subst hk; simp [hp]
      · simp [hk]
    · rw [if_neg (by simp [hp]), ih, dmem_dset]
      by_cases hk : p.1 = k
      · subst hk; simp
      · have h3 : ¬ k = p.1 := fun hc => hk hc.symm
        simp [hk, h3]

theorem fill_dget_of_not_dmem (s : Dict) (o : Dict) (k : String) (v : Value)
    (ho : dmem o k = false) (hs : dget s k = some v) :
    dget (fillDefaults s o) k = some (pycopy v) := by
  induction s generalizing o with
  | nil => simp [dget] at hs
  | cons p rest ih =>
    simp only [fillDefaults]
    by_cases hp : p.1 = k
    · have hop : dmem o p.1 = false := by rw [hp]; exact ho
      rw [if_neg (by simp [hop]), hp]
      rw [dget_cons, if_pos hp] at hs
      have hv : p.2 = v := by injection hs
      rw [fill_dget_of_dmem _ _ _ (by simp [dmem_dset]), dget_dset_self, hv]
    · rw [dget_cons, if_neg hp] at hs
      by_cases hop : dmem o p.1
      · rw [if_pos hop]; exact ih o ho hs
      · rw [if_neg (by simp [hop])]
        refine ih _ ?_ hs
        rw [dmem_dset]
        have h3 : ¬ k = p.1 := fun hc => hp hc.symm
        simp [ho, h3]

theorem fill_nodup (s : Dict) (o : Dict) (h : (dkeys o).Nodup) :
    (dkeys (fillDefaults s o)).Nodup := by
  induction s generalizing o with
  | nil => simpa [fillDefaults]
  | cons p rest ih =>
    simp only [fillDefaults]
    by_cases hp : dmem o p.1
    · rw [if_pos hp]; exact ih o h
    · rw [if_neg (by simp [hp])]
      exact ih _ (nodup_dkeys_dset o p.1 (pycopy p.2) h)

/-! ### Main-pass lemmas -/

theorem stepOption_key (research : Bool → String → String → Bool) (schema : Dict)
    (syn : SynDict) (te : Bool) (tolre : List String) (we : Bool)
    (args : List String) (i : Nat) (nextKi : Option Nat)
    (k : String) (v : Value) (sw : List Warning)
    (h : stepOption research schema syn te tolre we args i nextKi = .ok (k, v, sw)) :
    k = resolveKey syn (pyAt args i) := by
  unfold stepOption at h
  set k0 := resolveKey syn (pyAt args i) with hk0
  by_cases hm : dmem schema k0
  · simp only [hm, if_true] at h
    cases hx : extractValue args i nextKi k0 (some (tyOf ((dget schema k0).getD (.bool false)))) with
    | error e => rw [hx, bindE_error] at h; exact absurd h (by simp)
    | ok w =>
      simp only [hx, bindE_ok] at h
      injection h with h1; injection h1 with h2 _; exact h2.symm
  · simp only [hm, Bool.false_eq_true, if_false] at h
    by_cases ht : (te || (decide (tolre.length > 0) && match_any_word research k0 tolre true false)) = true
    · rw [if_pos ht] at h
      cases hx : extractValue args i nextKi k0 none with
      | error e => rw [hx, bindE_error] at h; exact absurd h (by simp)
      | ok w =>
        simp only [hx, bindE_ok] at h
        injection h with h1; injection h1 with h2 _; exact h2.symm
    · rw [if_neg ht] at h; exact absurd h (by simp)

theorem mainPass_mem_mono (research : Bool → String → String → Bool) (schema : Dict)
    (syn : SynDict) (te : Bool) (tolre : List String) (we : Bool)
    (args : List String) (kis : List Nat) (prev : Option (Nat × String))
    (opt o2 : Dict) (ws w2 : List Warning) (k : String)
    (h : mainPassAux research schema syn te tolre we args prev opt ws kis = .ok (o2, w2))
    (hm : dmem opt k = true) : dmem o2 k = true := by
  induction kis generalizing prev opt ws with
  | nil =>
    simp only [mainPassAux] at h
    injection h with h1; injection h1 with h2 _; exact h2 ▸ hm
  | cons i rest ih =>
    simp only [mainPassAux] at h
    cases hg : gapExtra schema te args prev i with
    | error e => rw [hg, bindE_error] at h; exact absurd h (by simp)
    | ok gw =>
      simp only [hg, bindE_ok] at h
      cases hs : stepOption research schema syn te tolre we args i rest.head? with
      | error e => rw [hs, bindE_error] at h; exact absurd h (by simp)
      | ok r =>
        obtain ⟨k1, v1, sw1⟩ := r
        simp only [hs, bindE_ok] at h
        exact ih _ _ _ h (by simp [dmem_dset, hm])

theorem mainPass_nodup (research : Bool → String → String → Bool) (schema : Dict)
    (syn : SynDict) (te : Bool) (tolre : List String) (we : Bool)
    (args : List String) (kis : List Nat) (prev : Option (Nat × String))
    (opt o2 : Dict) (ws w2 : List Warning)
    (h : mainPassAux research schema syn te tolre we args prev opt ws kis = .ok (o2, w2))
    (hn : (dkeys opt).Nodup) : (dkeys o2).Nodup := by
  induction kis generalizing prev opt ws with
  | nil =>
    simp only [mainPassAux] at h
    injection h with h1; injection h1 with h2 _; exact h2 ▸ hn
  | cons i rest ih =>
    simp only [mainPassAux] at h
    cases hg : gapExtra schema te args prev i with
    | error e => rw [hg, bindE_error] at h; exact absurd h (by simp)
    | ok gw =>
      simp only [hg, bindE_ok] at h
      cases hs : stepOption research schema syn te tolre we args i rest.head? with
      | error e => rw [hs, bindE_error] at h; exact absurd h (by simp)
      | ok r =>
        obtain ⟨k1, v1, sw1⟩ := r
        simp only [hs, bindE_ok] at h
        exact ih _ _ _ h (nodup_dkeys_dset _ _ _ hn)

theorem mainPass_not_given (research : Bool → String → String → Bool) (schema : Dict)
    (syn : SynDict) (te : Bool) (tolre : List String) (we : Bool)
    (args : List String) (kis : List Nat) (prev : Option (Nat × String))
    (opt o2 : Dict) (ws w2 : List Warning) (k : String)
    (h : mainPassAux research schema syn te tolre we args prev opt ws kis = .ok (o2, w2))
    (hk : ¬ k ∈ resolvedKeys syn args kis) : dget o2 k = dget opt k := by
  induction kis generalizing prev opt ws with
  | nil =>
    simp only [mainPassAux] at h
    injection h with h1; injection h1 with h2 _; exact h2 ▸ rfl
  | cons i rest ih =>
    simp only [mainPassAux] at h
    cases hg : gapExtra schema te args prev i with
    | error e => rw [hg, bindE_error] at h; exact absurd h (by simp)
    | ok gw =>
      simp only [hg, bindE_ok] at h
      cases hs : stepOption research schema syn te tolre we args i rest.head? with
      | error e => rw [hs, bindE_error] at h; exact absurd h (by simp)
      | ok r =>
        obtain ⟨k1, v1, sw1⟩ := r
        simp only [hs, bindE_ok] at h
        have hk1 : k1 = resolveKey syn (pyAt args i) :=
          stepOption_key research schema syn te tolre we args i rest.head? k1 v1 sw1 hs
        have hrest : ¬ k ∈ resolvedKeys syn args rest := by
          intro hc; exact hk (by simp [resolvedKeys] at hc ⊢; exact Or.inr hc)
        have hne : k ≠ k1 := by
          intro hc
          exact hk (by simp [resolvedKeys, hc, hk1])
        rw [ih _ _ _ h hrest, dget_dset_ne _ _ _ _ hne]

theorem mainPass_mem_iff (research : Bool → String → String → Bool) (schema : Dict)
    (syn : SynDict) (te : Bool) (tolre : List String) (we : Bool)
    (args : List String) (kis : List Nat) (prev : Option (Nat × String))
    (opt o2 : Dict) (ws w2 : List Warning) (k : String)
    (h : mainPassAux research schema syn te tolre we args prev opt ws kis = .ok (o2, w2)) :
    dmem o2 k = (dmem opt k || decide (k ∈ resolvedKeys syn args kis)) := by
  induction kis generalizing prev opt ws with
  | nil =>
    simp only [mainPassAux] at h
    injection h with h1; injection h1 with h2 _
    subst h2
    simp [resolvedKeys]
  | cons i rest ih =>
    simp only [mainPassAux] at h
    cases hg : gapExtra schema te args prev i with
    | error e => rw [hg, bindE_error] at h; exact absurd h (by simp)
    | ok gw =>
      simp only [hg, bindE_ok] at h
      cases hs : stepOption research schema syn te tolre we args i rest.head? with
      | error e => rw [hs, bindE_error] at h; exact absurd h (by simp)
      | ok r =>
        obtain ⟨k1, v1, sw1⟩ := r
        simp only [hs, bindE_ok] at h
        have hk1 : k1 = resolveKey syn (pyAt args i) :=
          stepOption_key research schema syn te tolre we args i rest.head? k1 v1 sw1 hs
        rw [ih _ _ _ h, dmem_dset]
        have hres : resolvedKeys syn args (i :: rest)
            = resolveKey syn (pyAt args i) :: resolvedKeys syn args rest := rfl
        rw [hres, ← hk1]
        by_cases hk : k = k1
        · simp [hk]
        · simp [hk, fun hc : k1 = k => hk hc.symm]

/-! ### Claim theorems -/

/-- C4: for a boolean-typed schema key, a marker followed immediately by
another marker or by the end of the sequence yields `True`; with literal
argument `1` it yields `True`, with `0` it yields `False`, and with any
other literal it is a fatal type error; and for a non-boolean non-list
key, a marker with no following argument token is a fatal error. -/
theorem c4_bool_option_semantics (research : Bool → String → String → Bool)
    (schema : Dict) (syn : SynDict) (te : Bool) (tolre : List String) (we : Bool)
    (args : List String) (i : Nat) (nextKi : Option Nat) :
    (∀ b0, dget schema (resolveKey syn (pyAt args i)) = some (Value.bool b0) →
      (noArgAt args i nextKi →
        stepOption research schema syn te tolre we args i nextKi
          = .ok (resolveKey syn (pyAt args i), .bool true, []))
      ∧ (¬ noArgAt args i nextKi → pyAt args (i+1) = "1" →
        stepOption research schema syn te tolre we args i nextKi
          = .ok (resolveKey syn (pyAt args i), .bool true, []))
      ∧ (¬ noArgAt args i nextKi → pyAt args (i+1) = "0" →
        stepOption research schema syn te tolre we args i nextKi
          = .ok (resolveKey syn (pyAt args i), .bool false, []))
      ∧ (¬ noArgAt args i nextKi → pyAt args (i+1) ≠ "1" → pyAt args (i+1) ≠ "0" →
        stepOption research schema syn te tolre we args i nextKi
          = .error (.boolBadValue (resolveKey syn (pyAt args i)) (pyAt args (i+1)))))
    ∧ (∀ v0, dget schema (resolveKey syn (pyAt args i)) = some v0 →
        tyOf v0 ≠ .bool → tyOf v0 ≠ .list → noArgAt args i nextKi →
        stepOption research schema syn te tolre we args i nextKi
          = .error (.missingArg (resolveKey syn (pyAt args i)))) := by
  constructor
  · intro b0 hb
    set bit := pyAt args i with hbit
    set tok := pyAt args (i+1) with htok
    set k := resolveKey syn bit with hk
    have hm : dmem schema k = true := by simp [dmem, hb]
    refine ⟨?_, ?_, ?_, ?_⟩
    · intro hna
      simp [stepOption, hm, extractValue, hb, tyOf, hna, bindE_ok, bindE_error, ← hbit, ← htok, ← hk]
    · intro hna h1
      simp [stepOption, hm, extractValue, hb, tyOf, hna, h1, bindE_ok, bindE_error, ← hbit, ← htok, ← hk]
    · intro hna h0
      simp [stepOption, hm, extractValue, hb, tyOf, hna, h0, bindE_ok, bindE_error, ← hbit, ← htok, ← hk]
    · intro hna h1 h0
      simp [stepOption, hm, extractValue, hb, tyOf, hna, h1, h0, bindE_ok, bindE_error, ← hbit, ← htok, ← hk]
  · intro v0 hv hnb hnl hna
    set bit := pyAt args i with hbit
    set k := resolveKey syn bit with hk
    have hm : dmem schema k = true := by simp [dmem, hv]
    have hne1 : ¬ some (tyOf v0) = some PyTy.list := by simp [hnl]
    have hne2 : ¬ some (tyOf v0) = some PyTy.bool := by simp [hnb]
    simp [stepOption, hm, extractValue, hv, hne1, hne2, hna, bindE_ok, bindE_error, ← hbit, ← hk]

/-- C4 witness: concrete instances of all five behaviors, on the schema
`{'b': False, 'k': 5}`. -/
theorem c4_bool_option_semantics_witness :
    stepOption noMatchSearch [("b", .bool false), ("k", .int 5)] [] false [] true
      ["-b"] 0 none = .ok ("b", .bool true, [])
    ∧ stepOption noMatchSearch [("b", .bool false), ("k", .int 5)] [] false [] true
      ["-b", "1"] 0 none = .ok ("b", .bool true, [])
    ∧ stepOption noMatchSearch [("b", .bool false), ("k", .int 5)] [] false [] true
      ["-b", "0"] 0 none = .ok ("b", .bool false, [])
    ∧ stepOption noMatchSearch [("b", .bool false), ("k", .int 5)] [] false [] true
      ["-b", "maybe"] 0 none = .error (.boolBadValue "b" "maybe")
    ∧ stepOption noMatchSearch [("b", .bool false), ("k", .int 5)] [] false [] true
      ["-k"] 0 none = .error (.missingArg "k") := by
  refine ⟨?_, ?_, ?_, ?_, ?_⟩
  · exact ((c4_bool_option_semantics noMatchSearch [("b", .bool false), ("k", .int 5)] []
      false [] true ["-b"] 0 none).1 false (by decide)).1 (by decide)
  · exact (((c4_bool_option_semantics noMatchSearch [("b", .bool false), ("k", .int 5)] []
      false [] true ["-b", "1"] 0 none).1 false (by decide)).2.1 (by decide) (by decide))
  · exact (((c4_bool_option_semantics noMatchSearch [("b", .bool false), ("k", .int 5)] []
      false [] true ["-b", "0"] 0 none).1 false (by decide)).2.2.1 (by decide) (by decide))
  · exact (((c4_bool_option_semantics noMatchSearch [("b", .bool false), ("k", .int 5)] []
      false [] true ["-b", "maybe"] 0 none).1 false (by decide)).2.2.2 (by decide) (by decide)
      (by decide))
  · exact ((c4_bool_option_semantics noMatchSearch [("b", .bool false), ("k", .int 5)] []
      false [] true ["-k"] 0 none).2 (.int 5) (by decide) (by decide) (by decide) (by decide))

/-- C5: a list-typed key's marker at index `i` consumes exactly the tokens
from `i+1` up to (excluding) the next marker index, or to the end when no
later marker exists; the value is that ordered, possibly empty, sequence
of unconverted strings. -/
theorem c5_list_option_consumes (research : Bool → String → String → Bool)
    (schema : Dict) (syn : SynDict) (te : Bool) (tolre : List String) (we : Bool)
    (args : List String) (i : Nat) (nextKi : Option Nat) (xs0 : List String)
    (hl : dget schema (resolveKey syn (pyAt args i)) = some (Value.list xs0)) :
    stepOption research schema syn te tolre we args i nextKi
      = .ok (resolveKey syn (pyAt args i),
             .list (pySlice args (i+1) (some (nextKi.getD args.length))), []) := by
  set bit := pyAt args i with hbit
  set k := resolveKey syn bit with hk
  have hm : dmem schema k = true := by simp [dmem, hl]
  simp [stepOption, hm, extractValue, hl, tyOf, bindE_ok, bindE_error, ← hbit, ← hk]

/-- C5 witness: `-files a b c -x 1` gives `files` the tokens before the
next marker, and a trailing `-files` with nothing after it the empty list. -/
theorem c5_list_option_consumes_witness :
    stepOption noMatchSearch [("files", .list []), ("x", .bool false)] [] false [] true
      ["-files", "a", "b", "c", "-x", "1"] 0 (some 4)
      = .ok ("files", .list ["a", "b", "c"], [])
    ∧ stepOption noMatchSearch [("files", .list []), ("x", .bool false)] [] false [] true
      ["-files"] 0 none = .ok ("files", .list [], []) := by
  constructor
  · have h := c5_list_option_consumes noMatchSearch
      [("files", .list []), ("x", .bool false)] [] false [] true
      ["-files", "a", "b", "c", "-x", "1"] 0 (some 4) [] (by decide)
    rw [h]; rfl
  · have h := c5_list_option_consumes noMatchSearch
      [("files", .list []), ("x", .bool false)] [] false [] true
      ["-files"] 0 none [] (by decide)
    rw [h]; rfl

/-- C7: a marker whose synonym-resolved key is not in the schema is
accepted when blanket tolerance is on or the key matches the tolerated
regular expressions: it gets inferred type string (boolean `True` when no
argument follows), a warning is emitted unless silenced, and parsing
completes with the key present in the result; otherwise parsing fails
fatally with an unexpected-option error. -/
theorem c7_unknown_key_policy (research : Bool → String → String → Bool)
    (schema : Dict) (syn : SynDict) (te : Bool) (tolre : List String) (we : Bool)
    (args : List String) (i : Nat) (rest : List Nat)
    (prev : Option (Nat × String)) (opt : Dict) (ws : List Warning)
    (hunk : dmem schema (resolveKey syn (pyAt args i)) = false) :
    ((te || (decide (tolre.length > 0)
        && match_any_word research (resolveKey syn (pyAt args i)) tolre true false)) = true →
      stepOption research schema syn te tolre we args i rest.head?
        = .ok (resolveKey syn (pyAt args i),
               if noArgAt args i rest.head? then Value.bool true
               else Value.str (pyAt args (i+1)),
               if we then [Warning.unexpectedOpt (resolveKey syn (pyAt args i))] else [])
      ∧ ∀ o2 w2,
          mainPassAux research schema syn te tolre we args prev opt ws (i :: rest)
            = .ok (o2, w2) →
          dmem o2 (resolveKey syn (pyAt args i)) = true)
    ∧ ((te || (decide (tolre.length > 0)
        && match_any_word research (resolveKey syn (pyAt args i)) tolre true false)) = false →
      ∀ gw, gapExtra schema te args prev i = .ok gw →
        mainPassAux research schema syn te tolre we args prev opt ws (i :: rest)
          = .error (.unexpectedOpt (resolveKey syn (pyAt args i)))) := by
  set k := resolveKey syn (pyAt args i) with hk
  constructor
  · intro ht
    have hstep : stepOption research schema syn te tolre we args i rest.head?
        = .ok (k,
               if noArgAt args i rest.head? then Value.bool true
               else Value.str (pyAt args (i+1)),
               if we then [Warning.unexpectedOpt k] else []) := by
      by_cases hna : noArgAt args i rest.head?
      · simp [stepOption, hunk, ht, extractValue, hna, bindE_ok, bindE_error, ← hk]
      · simp [stepOption, hunk, ht, extractValue, hna, bindE_ok, bindE_error, ← hk]
    refine ⟨hstep, ?_⟩
    intro o2 w2 h
    simp only [mainPassAux] at h
    cases hg : gapExtra schema te args prev i with
    | error e => rw [hg, bindE_error] at h; exact absurd h (by simp)
    | ok gw =>
      simp only [hg, bindE_ok, hstep] at h
      exact mainPass_mem_mono research schema syn te tolre we args rest _ _ _ _ _ k h
        (by simp [dmem_dset])
  · intro ht gw hg
    have hstep : stepOption research schema syn te tolre we args i rest.head?
        = .error (.unexpectedOpt k) := by
      simp [stepOption, hunk, ht, ← hk]
    simp only [mainPassAux, hg, bindE_ok, hstep, bindE_error]

/-- C7 witness: with schema `{'k': 5}` and input `-z 3`, blanket tolerance
accepts `z` as the string `"3"` with a warning and the parse includes `z`,
while without tolerance the parse fails with the unexpected-option error. -/
theorem c7_unknown_key_policy_witness :
    stepOption noMatchSearch [("k", .int 5)] [] true [] true ["-z", "3"] 0 ([] : List Nat).head?
      = .ok ("z", .str "3", [.unexpectedOpt "z"])
    ∧ mainPassAux noMatchSearch [("k", .int 5)] [] false [] true ["-z", "3"]
        none [] [] [0] = .error (.unexpectedOpt "z") := by
  constructor
  · exact ((c7_unknown_key_policy noMatchSearch [("k", .int 5)] [] true [] true
      ["-z", "3"] 0 [] none [] [] (by decide)).1 (by decide)).1
  · exact (c7_unknown_key_policy noMatchSearch [("k", .int 5)] [] false [] true
      ["-z", "3"] 0 [] none [] [] (by decide)).2 (by decide) [] (by rfl)

/-- C8: when the previous marker's consumed span (its key and one value
slot) stops short of the current marker and the previous key is not
list-typed, the tokens in the gap are extra: with tolerance a warning
carrying them is emitted and parsing continues past them, otherwise
parsing fails fatally with those tokens. -/
theorem c8_gap_extra_args (research : Bool → String → String → Bool)
    (schema : Dict) (syn : SynDict) (tolre : List String) (we : Bool)
    (args : List String) (p : Nat) (pk : String) (i : Nat) (rest : List Nat)
    (opt : Dict) (ws : List Warning)
    (hgap : p + 1 < i - 1) (hty : isListTy (dget schema pk) = false) :
    mainPassAux research schema syn false tolre we args (some (p, pk)) opt ws (i :: rest)
      = .error (.extraArg (pySlice args (p+2) (some i)))
    ∧ mainPassAux research schema syn true tolre we args (some (p, pk)) opt ws (i :: rest)
      = bindE (stepOption research schema syn true tolre we args i rest.head?)
          (fun r =>
            mainPassAux research schema syn true tolre we args (some (i, r.1))
              (dset opt r.1 r.2.1)
              (ws ++ [.extraArg (pySlice args (p+2) (some i))] ++ r.2.2) rest) := by
  constructor
  · simp [mainPassAux, gapExtra, hgap, hty, bindE]
  · have hg : gapExtra schema true args (some (p, pk)) i
        = .ok [.extraArg (pySlice args (p+2) (some i))] := by
      simp [gapExtra, hgap, hty]
    simp only [mainPassAux, hg, bindE_ok]

/-- C8 witness: `-n 8 foo -k 7` (gap token `foo` after `-n 8`): fatal
without tolerance, warn-and-skip with tolerance. -/
theorem c8_gap_extra_args_witness :
    mainPassAux noMatchSearch [("n", .int 1), ("k", .int 5)] [] false [] true
      ["-n", "8", "foo", "-k", "7"] (some (0, "n")) [("n", .int 8)] [] [3]
      = .error (.extraArg ["foo"])
    ∧ mainPassAux noMatchSearch [("n", .int 1), ("k", .int 5)] [] true [] true
      ["-n", "8", "foo", "-k", "7"] (some (0, "n")) [("n", .int 8)] [] [3]
      = .ok ([("n", .int 8), ("k", .int 7)], [.extraArg ["foo"]]) := by
  have h := c8_gap_extra_args noMatchSearch [("n", .int 1), ("k", .int 5)] [] [] true
    ["-n", "8", "foo", "-k", "7"] 0 "n" 3 [] [("n", .int 8)] [] (by decide) (by decide)
  constructor
  · have h1 := h.1
    rw [show pySlice ["-n", "8", "foo", "-k", "7"] (0+2) (some 3) = ["foo"] from rfl] at h1
    exact h1
  · have h2 := h.2
    rw [h2]
    decide

/-- C3: when the region before the first marker is populated (the sequence
does not start with a marker) and the after-region condition also holds
(at least two tokens after the last marker, whose key is not list-typed),
parsing fails fatally with the positional-before-or-after error and no
mapping is produced. -/
theorem c3_mixed_positionals_fatal (research : Bool → String → String → Bool)
    (default_opt : Dict) (posKeys : List String) (syn : SynDict)
    (te : Bool) (tolre : List String) (we : Bool) (adv : List (String × String))
    (args : List String)
    (hpos : posKeys.all (fun pk => dmem (builtinDefaults default_opt) pk) = true)
    (hne : markerIndices args ≠ [])
    (hfirst : (markerIndices args).head? ≠ some 0)
    (hlast : (markerIndices args).getLastD 0 + 2 < args.length)
    (hty : isListTy (dget (builtinDefaults default_opt)
        (lstripDash (pyAt args ((markerIndices args).getLastD 0)))) = false) :
    command_line_options research default_opt posKeys syn te tolre we adv args
      = .error .bothBeforeAfter := by
  have hlen : args.length ≠ 0 := by
    intro h0
    have : args = [] := List.length_eq_zero.mp h0
    rw [this] at hne
    exact hne rfl
  have hmiss : posKeys.filter (fun pk => !dmem (builtinDefaults default_opt) pk) = [] := by
    rw [List.filter_eq_nil_iff]
    intro pk hpk
    have := List.all_eq_true.mp hpos pk hpk
    simp [this]
  have hreg : computeRegion (builtinDefaults default_opt) args (markerIndices args)
      = .error .bothBeforeAfter := by
    simp only [List.getLastD_eq_getLast?] at hlast hty
    unfold computeRegion
    simp [hlen, hne, hfirst, hlast, hty]
  have hnorm : normalizeArgs (builtinDefaults default_opt) te posKeys args
      = .error .bothBeforeAfter := by
    unfold normalizeArgs
    rw [hreg, bindE_error]
  unfold command_line_options
  rw [if_neg (by simp [hmiss]), hnorm, bindE_error]

/-- C3 witness: schema `{'i','o','k'}`, positional keys `['i','o']`,
input `in -k 1 out`. -/
theorem c3_mixed_positionals_fatal_witness :
    command_line_options noMatchSearch [("i", .str ""), ("o", .str ""), ("k", .int 5)]
      ["i", "o"] [] false [] true [] ["in", "-k", "1", "out"]
      = .error .bothBeforeAfter :=
  c3_mixed_positionals_fatal noMatchSearch [("i", .str ""), ("o", .str ""), ("k", .int 5)]
    ["i", "o"] [] false [] true [] ["in", "-k", "1", "out"]
    (by decide) (by decide) (by decide) (by decide) (by decide)

/-! ### Synonym-dict lemmas for C9 -/

theorem sget_mapSet (d : SynDict) (k k' w : String) :
    sget (d.map fun p => if p.1 = k then (p.1, w) else p) k'
      = if k' = k then (sget d k).map (fun _ => w) else sget d k' := by
  induction d with
  | nil => by_cases h : k' = k <;> simp [sget, h]
  | cons p rest ih =>
    by_cases hp : p.1 = k
    · by_cases hk : k' = k
      · simp [sget, hp, hk, hp.trans hk.symm]
      · have h1 : p.1 ≠ k' := fun hc => hk (hc ▸ hp.symm ▸ rfl)
        have h2 : ¬ k = k' := fun hc => hk hc.symm
        simp [sget, hp, hk, h1, h2, ih]
    · by_cases hpk : p.1 = k'
      · have hk : ¬ k' = k := fun hc => hp (hpk.symm ▸ hc)
        simp [sget, hp, hpk, hk]
      · simp [sget, hp, hpk, ih]

theorem mapSet_id_of_sget (d : SynDict) (k w : String)
    (hnd : (d.map (fun p => p.1)).Nodup) (h : sget d k = some w) :
    (d.map fun p => if p.1 = k then (p.1, w) else p) = d := by
  induction d with
  | nil => rfl
  | cons p rest ih =>
    by_cases hp : p.1 = k
    · rw [sget, if_pos hp] at h
      have hw : p.2 = w := by injection h
      have hknotin : ¬ k ∈ rest.map (fun p => p.1) := by
        have := hnd
        simp only [List.map_cons, List.nodup_cons] at this
        exact hp ▸ this.1
      have hrest : (rest.map fun p => if p.1 = k then (p.1, w) else p) = rest := by
        refine List.map_congr_left ?_ |>.trans rest.map_id
        intro q hq
        have : q.1 ≠ k := by
          intro hc
          exact hknotin (hc ▸ List.mem_map_of_mem (fun p => p.1) hq)
        simp [this]
      have hpw : (p.1, w) = p := by rw [← hw]
      simp only [List.map_cons, if_pos hp, hrest, hpw]
    · rw [sget, if_neg hp] at h
      have hnd2 : (rest.map (fun p => p.1)).Nodup := by
        simp only [List.map_cons, List.nodup_cons] at hnd
        exact hnd.2
      simp only [List.map_cons, if_neg hp, ih hnd2 h]

/-- C9 counterexample: the code does mutate a caller-owned structure: with
an empty caller synonym table, line 163 leaves the caller's dict holding
the entry `help -> h`, so it is no longer equal to what was passed in. -/
theorem c9_counterexample :
    synonymsAfter [] = [("help", "h")] ∧ ([("help", "h")] : SynDict) ≠ [] := by
  constructor
  · rfl
  · intro h
    cases h

/-- C9 amended: the schema dict, positional-key list, tolerated list and
`sys.argv` are read-only (the function works on copies of the schema and
of `sys.argv[1:]`), but the synonym dict is mutated in place by line 163:
after the call it holds `help -> h`, and it is unchanged precisely when it
already mapped `help` to `h`. -/
theorem c9_synonyms_mutation (syn : SynDict)
    (hnd : (syn.map (fun p => p.1)).Nodup) :
    synonymsAfter syn = syn ↔ sget syn "help" = some "h" := by
  unfold synonymsAfter sset
  by_cases hm : (sget syn "help").isSome
  · rw [if_pos hm]
    constructor
    · intro h
      have := sget_mapSet syn "help" "help" "h"
      rw [h] at this
      simp only [if_pos rfl] at this
      rcases Option.isSome_iff_exists.mp hm with ⟨w, hw⟩
      rw [hw] at this
      simp at this
      rw [← this]
      exact hw
    · intro h
      exact mapSet_id_of_sget syn "help" "h" hnd h
  · rw [if_neg hm]
    constructor
    · intro h
      have h2 : syn.length + 1 = syn.length := by
        have h3 := congrArg List.length h
        simp at h3
      omega
    · intro h
      rw [h] at hm
      simp at hm

/-- C9 witness: the synonym table `{'p': 'param'}` comes back changed, and
`{'help': 'h'}` comes back unchanged. -/
theorem c9_synonyms_mutation_witness :
    (synonymsAfter [("p", "param")] = [("p", "param")]
      ↔ sget [("p", "param")] "help" = some "h")
    ∧ synonymsAfter [("help", "h")] = [("help", "h")] := by
  constructor
  · exact c9_synonyms_mutation [("p", "param")] (by decide)
  · exact (c9_synonyms_mutation [("help", "h")] (by decide)).mpr (by decide)

/-- C2 counterexample: with schema `{'i','o','k': 5.5}` and input
`-k 4.5 in`, the after positional region exists (it starts at index 2)
although after the marker's single value slot only one unconsumed token
remains, not two as the claim requires; the parse indeed binds that one
token to positional key `i`. -/
theorem c2_counterexample :
    computeRegion (builtinDefaults [("i", .str ""), ("o", .str ""), ("k", .float "5.5")])
        ["-k", "4.5", "in"] (markerIndices ["-k", "4.5", "in"])
      = .ok { whereAt := .after, fromHere := 2, upTo := none }
    ∧ ["-k", "4.5", "in"].length - ((markerIndices ["-k", "4.5", "in"]).getLastD 0 + 2) = 1
    ∧ (match command_line_options noMatchSearch
          [("i", .str ""), ("o", .str ""), ("k", .float "5.5")]
          ["i", "o"] [] false [] true [] ["-k", "4.5", "in"] with
        | .ok o => dget o.opt "i"
        | .error _ => none) = some (.str "in") := by
  refine ⟨by decide, by decide, by decide⟩

/-- Ordered pairing of the positional-region tokens with the positional
keys: when there are enough keys and no list-typed key is used, the walk
pairs the j-th region token (at sequence index `fromHere + j`) with the
j-th positional key, with no warnings. -/
theorem collectAux_pairs (schema : Dict) (te : Bool) (posKeys : List String)
    (args : List String) (fromHere : Nat) (upTo : Option Nat) :
    ∀ (sl : List String) (i : Nat),
      sl.length + i ≤ posKeys.length →
      (∀ j, i ≤ j → j < i + sl.length → isListTy (dget schema (pyAt posKeys j)) = false) →
      collectAux schema te posKeys args fromHere upTo sl i
        = .ok ((List.range sl.length).map
            (fun j => (fromHere + (i + j), pyAt posKeys (i + j))), []) := by
  intro sl
  induction sl with
  | nil => intro i _ _; simp [collectAux]
  | cons x rest ih =>
    intro i hlen hty
    simp only [List.length_cons] at hlen
    have h1 : ¬ posKeys.length < i + 1 := by omega
    have h2 : isListTy (dget schema (pyAt posKeys i)) = false :=
      hty i (le_refl i) (by simp)
    simp only [collectAux, if_neg h1, h2, Bool.false_eq_true, if_false]
    rw [ih (i+1) (by omega) (fun j hj1 hj2 => hty j (by omega) (by simp; omega)), bindE_ok]
    have hr : List.range (rest.length + 1) = 0 :: (List.range rest.length).map Nat.succ :=
      List.range_succ_eq_map rest.length
    simp only [List.length_cons, hr, List.map_cons, List.map_map, Nat.add_zero]
    refine congrArg (fun l => Except.ok ((fromHere + i, pyAt posKeys i) :: l, [])) ?_
    refine List.map_congr_left ?_
    intro j hj
    simp only [Function.comp_apply, Nat.succ_eq_add_one]
    have : i + 1 + j = i + (j + 1) := by omega
    rw [this]

/-- `collectInserts` on a to-the-end region, under the same conditions. -/
theorem collectInserts_drop (schema : Dict) (te : Bool) (posKeys : List String)
    (args : List String) (fh : Nat)
    (hk : args.length - fh ≤ posKeys.length)
    (hty : ∀ j, j < args.length - fh → isListTy (dget schema (pyAt posKeys j)) = false) :
    collectInserts schema te posKeys args fh none
      = .ok ((List.range (args.length - fh)).map
          (fun j => (fh + j, pyAt posKeys j)), []) := by
  unfold collectInserts
  have hsl : pySlice args fh none = args.drop fh := rfl
  rw [hsl, collectAux_pairs schema te posKeys args fh none (args.drop fh) 0
    (by rw [List.length_drop]; simpa using hk)
    (by
      intro j hj1 hj2
      rw [List.length_drop] at hj2
      exact hty j (by simpa using hj2))]
  simp [List.length_drop]

/-- C2 amended: with markers present and the sequence starting with one
(no before-region), the after positional region exists iff at least two
tokens follow the last marker itself (`last + 2 < len`) and the last
marker's key is not list-typed; it then runs to the end of the sequence,
starting at `last + 1` for a boolean key whose next token is not a
literal `0`/`1` (its argument is thus omitted), and at `last + 2` for a
boolean key with a `0`/`1` argument or any other scalar type; its tokens
are then paired in order with the positional keys. -/
theorem c2_after_region (schema : Dict) (args : List String)
    (posKeys : List String) (te : Bool)
    (hne : markerIndices args ≠ [])
    (hfirst : (markerIndices args).head? = some 0) :
    ∃ r, computeRegion schema args (markerIndices args) = .ok r
      ∧ ((r.whereAt = .after) ↔
          ((markerIndices args).getLastD 0 + 2 < args.length
            ∧ isListTy (dget schema
                (lstripDash (pyAt args ((markerIndices args).getLastD 0)))) = false))
      ∧ (r.whereAt = .after →
          r.upTo = none
          ∧ r.fromHere =
            (if isBoolTy (dget schema
                (lstripDash (pyAt args ((markerIndices args).getLastD 0)))) then
              (if pyAt args ((markerIndices args).getLastD 0 + 1) = "0"
                  ∨ pyAt args ((markerIndices args).getLastD 0 + 1) = "1" then
                (markerIndices args).getLastD 0 + 2
              else (markerIndices args).getLastD 0 + 1)
            else (markerIndices args).getLastD 0 + 2)
          ∧ (args.length - r.fromHere ≤ posKeys.length →
              (∀ j, j < args.length - r.fromHere →
                isListTy (dget schema (pyAt posKeys j)) = false) →
              collectInserts schema te posKeys args r.fromHere r.upTo
                = .ok ((List.range (args.length - r.fromHere)).map
                    (fun j => (r.fromHere + j, pyAt posKeys j)), []))) := by
  have hlen : args.length ≠ 0 := by
    intro h0
    have : args = [] := List.length_eq_zero.mp h0
    rw [this] at hne
    exact hne rfl
  set kis := markerIndices args with hkis
  set lastKi := kis.getLastD 0 with hlast
  set lastK := lstripDash (pyAt args lastKi) with hlastK
  have hr0 : ¬ (args.length ≠ 0 ∧ kis.head? ≠ some 0) := by
    intro ⟨_, hc⟩
    exact hc hfirst
  by_cases hcond : lastKi + 2 < args.length ∧ isListTy (dget schema lastK) = false
  · -- the after region exists
    have hlen1 : args.length > lastKi + 1 := by
      have := hcond.1
      omega
    refine ⟨{ whereAt := .after
              fromHere :=
                if isBoolTy (dget schema lastK) then
                  if args.length > lastKi + 1 ∧
                      (pyAt args (lastKi+1) = "0" ∨ pyAt args (lastKi+1) = "1") then
                    lastKi + 2
                  else lastKi + 1
                else lastKi + 2
              upTo := none }, ?_, ?_, ?_⟩
    · unfold computeRegion
      rw [if_pos ⟨hlen, hne⟩]
      simp only [← hlast, ← hlastK]
      rw [if_pos hcond, if_neg hr0]
    · simp [hcond]
    · intro _
      refine ⟨rfl, ?_, ?_⟩
      · simp only []
        by_cases hb : isBoolTy (dget schema lastK)
        · simp only [hb, if_true]
          by_cases h01 : pyAt args (lastKi+1) = "0" ∨ pyAt args (lastKi+1) = "1"
          · rw [if_pos ⟨hlen1, h01⟩, if_pos h01]
          · rw [if_neg (fun hc => h01 hc.2), if_neg h01]
        · simp only [hb, Bool.false_eq_true, if_false]
      · intro hk hty
        exact collectInserts_drop schema te posKeys args _ hk hty
  · -- no after region: the result is the noPos region
    refine ⟨{ whereAt := .noPos, fromHere := 0, upTo := none }, ?_, ?_, ?_⟩
    · unfold computeRegion
      rw [if_pos ⟨hlen, hne⟩]
      simp only [← hlast, ← hlastK]
      rw [if_neg hcond, if_neg hr0]
    · simp only []
      constructor
      · intro hc; cases hc
      · intro hc; exact absurd hc hcond
    · intro hc; cases hc

/-- C2 witness: `-b x y` with boolean `b`: the after region exists and
starts at index 1 (the boolean's argument is omitted since `x` is not
`0`/`1`), and its tokens `x`,`y` are paired with positional keys `i`,`o`. -/
theorem c2_after_region_witness :
    ∃ r, computeRegion [("b", .bool false), ("i", .str ""), ("o", .str "")]
        ["-b", "x", "y"] (markerIndices ["-b", "x", "y"]) = .ok r
      ∧ r.whereAt = .after ∧ r.fromHere = 1 ∧ r.upTo = none
      ∧ collectInserts [("b", .bool false), ("i", .str ""), ("o", .str "")] false
          ["i", "o"] ["-b", "x", "y"] r.fromHere r.upTo
          = .ok ([(1, "i"), (2, "o")], []) := by
  obtain ⟨r, hr, hiff, hafter⟩ := c2_after_region
    [("b", .bool false), ("i", .str ""), ("o", .str "")] ["-b", "x", "y"]
    ["i", "o"] false (by decide) (by decide)
  have hrv : r = { whereAt := PosWhere.after, fromHere := 1, upTo := none } := by
    have h2 : computeRegion [("b", .bool false), ("i", .str ""), ("o", .str "")]
        ["-b", "x", "y"] (markerIndices ["-b", "x", "y"])
        = .ok { whereAt := PosWhere.after, fromHere := 1, upTo := none } := by decide
    rw [h2] at hr
    injection hr with h3
    exact h3.symm
  subst hrv
  obtain ⟨hup, hfrom, hcoll⟩ := hafter rfl
  have h4 := hcoll (by decide) (by decide)
  refine ⟨_, hr, rfl, rfl, rfl, ?_⟩
  show collectInserts [("b", .bool false), ("i", .str ""), ("o", .str "")] false
    ["i", "o"] ["-b", "x", "y"] 1 none = .ok ([(1, "i"), (2, "o")], [])
  rw [h4]
  decide

/-! ### Lemmas for C10: the help key under its builtin default -/

theorem dget_addBuiltin_ne (d : Dict) (b k : String) (h : k ≠ b) :
    dget (addBuiltin d b) k = dget d k := by
  unfold addBuiltin
  by_cases hm : dmem d b
  · rw [if_pos hm]
  · rw [if_neg (by simp [hm])]
    exact dget_dset_ne d b k (.bool false) h

theorem dget_builtin_h (d : Dict) (hh : dmem d "h" = false) :
    dget (builtinDefaults d) "h" = some (.bool false) := by
  unfold builtinDefaults
  rw [dget_addBuiltin_ne _ _ _ (by decide)]
  unfold addBuiltin
  rw [if_neg (by simp [hh])]
  unfold dset
  rw [if_neg (by simp [hh]), dget_append, if_neg (by simp [hh])]
  simp [dget]

theorem extractValue_bool_ok (args : List String) (i : Nat) (nextKi : Option Nat)
    (k : String) (v : Value)
    (h : extractValue args i nextKi k (some .bool) = .ok v) : ∃ b, v = .bool b := by
  unfold extractValue at h
  rw [if_pos (by simp)] at h
  by_cases hna : noArgAt args i nextKi
  · rw [if_pos hna, if_pos (by simp)] at h
    exact ⟨true, by injection h with h2; exact h2.symm⟩
  · rw [if_neg hna, if_pos rfl] at h
    by_cases h1 : pyAt args (i+1) = "1"
    · rw [if_pos h1] at h
      exact ⟨true, by injection h with h2; exact h2.symm⟩
    · rw [if_neg h1] at h
      by_cases h0 : pyAt args (i+1) = "0"
      · rw [if_pos h0] at h
        exact ⟨false, by injection h with h2; exact h2.symm⟩
      · rw [if_neg h0] at h
        exact absurd h (by simp)

theorem stepOption_h_bool (research : Bool → String → String → Bool) (schema : Dict)
    (syn : SynDict) (te : Bool) (tolre : List String) (we : Bool)
    (args : List String) (i : Nat) (nextKi : Option Nat)
    (hb0 : Bool) (hh : dget schema "h" = some (.bool hb0))
    (v : Value) (sw : List Warning)
    (h : stepOption research schema syn te tolre we args i nextKi = .ok ("h", v, sw)) :
    ∃ b, v = .bool b := by
  have hk : "h" = resolveKey syn (pyAt args i) :=
    stepOption_key research schema syn te tolre we args i nextKi "h" v sw h
  unfold stepOption at h
  rw [← hk] at h
  rw [if_pos (by simp [dmem, hh]), hh] at h
  simp only [Option.getD_some, tyOf] at h
  cases hx : extractValue args i nextKi "h" (some .bool) with
  | error e => rw [hx, bindE_error] at h; exact absurd h (by simp)
  | ok w =>
    simp only [hx, bindE_ok] at h
    simp only [Except.ok.injEq, Prod.mk.injEq, true_and] at h
    exact h.1 ▸ extractValue_bool_ok args i nextKi "h" w hx

theorem mainPass_h_bool (research : Bool → String → String → Bool) (schema : Dict)
    (syn : SynDict) (te : Bool) (tolre : List String) (we : Bool)
    (args : List String) (kis : List Nat) (prev : Option (Nat × String))
    (opt o2 : Dict) (ws w2 : List Warning) (hb0 : Bool)
    (hschema : dget schema "h" = some (.bool hb0))
    (h : mainPassAux research schema syn te tolre we args prev opt ws kis = .ok (o2, w2))
    (hinv : dget opt "h" = none ∨ ∃ b, dget opt "h" = some (.bool b)) :
    dget o2 "h" = none ∨ ∃ b, dget o2 "h" = some (.bool b) := by
  induction kis generalizing prev opt ws with
  | nil =>
    simp only [mainPassAux] at h
    injection h with h1
    injection h1 with h2 _
    exact h2 ▸ hinv
  | cons i rest ih =>
    simp only [mainPassAux] at h
    cases hg : gapExtra schema te args prev i with
    | error e => rw [hg, bindE_error] at h; exact absurd h (by simp)
    | ok gw =>
      simp only [hg, bindE_ok] at h
      cases hs : stepOption research schema syn te tolre we args i rest.head? with
      | error e => rw [hs, bindE_error] at h; exact absurd h (by simp)
      | ok r =>
        obtain ⟨k1, v1, sw1⟩ := r
        simp only [hs, bindE_ok] at h
        refine ih _ _ _ h ?_
        by_cases hk : "h" = k1
        · subst hk
          right
          obtain ⟨b, hb⟩ := stepOption_h_bool research schema syn te tolre we args i
            rest.head? hb0 hschema v1 sw1 hs
          exact ⟨b, by rw [dget_dset_self, hb]⟩
        · rw [dget_dset_ne _ _ _ _ hk]
          exact hinv

theorem computeRegion_ne_nameErr (schema : Dict) (args : List String) (kis : List Nat) :
    computeRegion schema args kis ≠ .error .nameErr := by
  intro hc
  unfold computeRegion at hc
  repeat' split at hc
  all_goals simp_all

theorem collectAux_ne_nameErr (schema : Dict) (te : Bool) (posKeys : List String)
    (args : List String) (fromHere : Nat) (upTo : Option Nat) :
    ∀ (sl : List String) (i : Nat),
      collectAux schema te posKeys args fromHere upTo sl i ≠ .error .nameErr := by
  intro sl
  induction sl with
  | nil => intro i; simp [collectAux]
  | cons x rest ih =>
    intro i hc
    unfold collectAux at hc
    by_cases hl : posKeys.length < i + 1
    · rw [if_pos hl] at hc
      by_cases hte : te
      · rw [if_pos hte] at hc
        simp at hc
      · rw [if_neg hte] at hc
        simp at hc
    · rw [if_neg hl] at hc
      by_cases hlist : isListTy (dget schema (pyAt posKeys i)) = true
      · rw [if_pos hlist] at hc
        simp at hc
      · rw [if_neg hlist] at hc
        cases hr : collectAux schema te posKeys args fromHere upTo rest (i+1) with
        | error e =>
          rw [hr, bindE_error] at hc
          injection hc with h1
          exact ih (i+1) (h1 ▸ hr)
        | ok pr =>
          simp only [hr, bindE_ok] at hc
          simp at hc

theorem normalizeArgs_ne_nameErr (schema : Dict) (te : Bool) (posKeys : List String)
    (args : List String) :
    normalizeArgs schema te posKeys args ≠ .error .nameErr := by
  intro hc
  unfold normalizeArgs at hc
  cases hr : computeRegion schema args (markerIndices args) with
  | error e =>
    rw [hr, bindE_error] at hc
    injection hc with h1
    exact computeRegion_ne_nameErr schema args (markerIndices args) (h1 ▸ hr)
  | ok r =>
    simp only [hr, bindE_ok] at hc
    by_cases hw : r.whereAt ≠ PosWhere.noPos
    · rw [if_pos hw] at hc
      cases hcol : collectInserts schema te posKeys args r.fromHere r.upTo with
      | error e =>
        rw [hcol, bindE_error] at hc
        injection hc with h1
        exact collectAux_ne_nameErr schema te posKeys args r.fromHere r.upTo _ 0 (h1 ▸ hcol)
      | ok pr =>
        simp only [hcol, bindE_ok] at hc
        simp at hc
    · rw [if_neg hw] at hc
      simp at hc

theorem gapExtra_ne_nameErr (schema : Dict) (te : Bool) (args : List String)
    (prev : Option (Nat × String)) (i : Nat) :
    gapExtra schema te args prev i ≠ .error .nameErr := by
  intro hc
  unfold gapExtra at hc
  repeat' split at hc
  all_goals simp_all

theorem extractValue_ne_nameErr (args : List String) (i : Nat) (nextKi : Option Nat)
    (k : String) (ety : Option PyTy) :
    extractValue args i nextKi k ety ≠ .error .nameErr := by
  intro hc
  unfold extractValue at hc
  repeat' split at hc
  all_goals simp_all

theorem stepOption_ne_nameErr (research : Bool → String → String → Bool) (schema : Dict)
    (syn : SynDict) (te : Bool) (tolre : List String) (we : Bool)
    (args : List String) (i : Nat) (nextKi : Option Nat) :
    stepOption research schema syn te tolre we args i nextKi ≠ .error .nameErr := by
  intro hc
  unfold stepOption at hc
  by_cases hm : dmem schema (resolveKey syn (pyAt args i)) = true
  · rw [if_pos hm] at hc
    cases hx : extractValue args i nextKi (resolveKey syn (pyAt args i))
        (some (tyOf ((dget schema (resolveKey syn (pyAt args i))).getD (.bool false)))) with
    | error e =>
      rw [hx, bindE_error] at hc
      injection hc with h1
      exact extractValue_ne_nameErr args i nextKi _ _ (h1 ▸ hx)
    | ok v =>
      simp only [hx, bindE_ok] at hc
      simp at hc
  · rw [if_neg hm] at hc
    by_cases ht : (te || (decide (tolre.length > 0)
        && match_any_word research (resolveKey syn (pyAt args i)) tolre true false)) = true
    · rw [if_pos ht] at hc
      cases hx : extractValue args i nextKi (resolveKey syn (pyAt args i)) none with
      | error e =>
        rw [hx, bindE_error] at hc
        injection hc with h1
        exact extractValue_ne_nameErr args i nextKi _ _ (h1 ▸ hx)
      | ok v =>
        simp only [hx, bindE_ok] at hc
        simp at hc
    · rw [if_neg ht] at hc
      simp at hc

theorem mainPass_ne_nameErr (research : Bool → String → String → Bool) (schema : Dict)
    (syn : SynDict) (te : Bool) (tolre : List String) (we : Bool)
    (args : List String) (kis : List Nat) (prev : Option (Nat × String))
    (opt : Dict) (ws : List Warning) :
    mainPassAux research schema syn te tolre we args prev opt ws kis ≠ .error .nameErr := by
  induction kis generalizing prev opt ws with
  | nil => simp [mainPassAux]
  | cons i rest ih =>
    intro hc
    unfold mainPassAux at hc
    cases hg : gapExtra schema te args prev i with
    | error e =>
      rw [hg, bindE_error] at hc
      injection hc with h1
      exact gapExtra_ne_nameErr schema te args prev i (h1 ▸ hg)
    | ok gw =>
      simp only [hg, bindE_ok] at hc
      cases hs : stepOption research schema syn te tolre we args i rest.head? with
      | error e =>
        rw [hs, bindE_error] at hc
        injection hc with h1
        exact stepOption_ne_nameErr research schema syn te tolre we args i rest.head?
          (h1 ▸ hs)
      | ok r =>
        obtain ⟨k1, v1, sw1⟩ := r
        simp only [hs, bindE_ok] at hc
        exact ih _ _ _ hc

theorem postProcess_ok_of_h_bool (adv : List (String × String)) (opt : Dict)
    (b : Bool) (hh : dget opt "h" = some (.bool b)) :
    ∃ o, postProcess adv opt = .ok o ∧ o.opt = opt := by
  unfold postProcess
  by_cases ht : truthyAt opt "h"
  · rw [if_pos ht]
    by_cases ha : adv = []
    · rw [if_pos ha]
      exact ⟨_, rfl, rfl⟩
    · rw [if_neg ha, hh]
      exact ⟨_, rfl, rfl⟩
  · rw [if_neg ht]
    exact ⟨_, rfl, rfl⟩

/-- C10: when the caller's schema does not define `h` (so the builtin
boolean default applies), the resolved value of `h` is always a boolean,
which can never equal a string key of the advanced-help mapping, so the
advanced-help branch (the one that would hit the undefined name
`advanced`) is unreachable: the parse never raises that `NameError`, and
a `-h` marker only accepts the literal arguments `0`/`1` or none. -/
theorem c10_advanced_help_unreachable (research : Bool → String → String → Bool)
    (default_opt : Dict) (posKeys : List String) (syn : SynDict)
    (te : Bool) (tolre : List String) (we : Bool) (adv : List (String × String))
    (args : List String)
    (hh : dmem default_opt "h" = false) :
    command_line_options research default_opt posKeys syn te tolre we adv args
      ≠ .error .nameErr
    ∧ (∀ o, command_line_options research default_opt posKeys syn te tolre we adv args
        = .ok o → ∃ b, dget o.opt "h" = some (Value.bool b))
    ∧ (∀ i nextKi tok, pyAt args (i+1) = tok → tok ≠ "0" → tok ≠ "1" →
        ¬ noArgAt args i nextKi →
        resolveKey (synonymsAfter syn) (pyAt args i) = "h" →
        stepOption research (builtinDefaults default_opt) (synonymsAfter syn)
          te tolre we args i nextKi = .error (.boolBadValue "h" tok)) := by
  have hschema : dget (builtinDefaults default_opt) "h" = some (.bool false) :=
    dget_builtin_h default_opt hh
  have hmain : ∀ o, command_line_options research default_opt posKeys syn te tolre we adv args
      = .ok o → ∃ b, dget o.opt "h" = some (Value.bool b) := by
    intro o ho
    unfold command_line_options at ho
    by_cases hmiss : (posKeys.filter (fun pk => !dmem (builtinDefaults default_opt) pk)) ≠ []
    · rw [if_pos hmiss] at ho
      exact absurd ho (by simp)
    · rw [if_neg hmiss] at ho
      cases hn : normalizeArgs (builtinDefaults default_opt) te posKeys args with
      | error e => rw [hn, bindE_error] at ho; exact absurd ho (by simp)
      | ok pr =>
        obtain ⟨args1, ws0⟩ := pr
        simp only [hn, bindE_ok] at ho
        cases hm : mainPassAux research (builtinDefaults default_opt) (synonymsAfter syn)
            te tolre we args1 none [] [] (markerIndices args1) with
        | error e => rw [hm, bindE_error] at ho; exact absurd ho (by simp)
        | ok pr2 =>
          obtain ⟨opt0, ws1⟩ := pr2
          simp only [hm, bindE_ok] at ho
          have hb : ∃ b, dget (fillDefaults (builtinDefaults default_opt) opt0) "h"
              = some (.bool b) := by
            rcases mainPass_h_bool research (builtinDefaults default_opt)
                (synonymsAfter syn) te tolre we args1 (markerIndices args1) none
                [] opt0 [] ws1 false hschema hm (Or.inl rfl) with hnone | ⟨b, hsome⟩
            · exact ⟨false, fill_dget_of_not_dmem _ _ _ _ (by simp [dmem, hnone]) hschema⟩
            · exact ⟨b, by
                rw [fill_dget_of_dmem _ _ _ (by simp [dmem, hsome])]
                exact hsome⟩
          obtain ⟨b, hb⟩ := hb
          obtain ⟨o2, ho2, ho2opt⟩ := postProcess_ok_of_h_bool adv
            (fillDefaults (builtinDefaults default_opt) opt0) b hb
          simp only [ho2, bindE_ok] at ho
          refine ⟨b, ?_⟩
          have hoo : o.opt = o2.opt := by
            injection ho with h1
            rw [← h1]
          rw [hoo, ho2opt, hb]
  refine ⟨?_, hmain, ?_⟩
  · unfold command_line_options
    by_cases hmiss : (posKeys.filter (fun pk => !dmem (builtinDefaults default_opt) pk)) ≠ []
    · rw [if_pos hmiss]
      simp
    · rw [if_neg hmiss]
      cases hn : normalizeArgs (builtinDefaults default_opt) te posKeys args with
      | error e =>
        rw [bindE_error]
        intro hc
        injection hc with h1
        exact normalizeArgs_ne_nameErr (builtinDefaults default_opt) te posKeys args
          (h1 ▸ hn)
      | ok pr =>
        obtain ⟨args1, ws0⟩ := pr
        simp only [hn, bindE_ok]
        cases hm : mainPassAux research (builtinDefaults default_opt) (synonymsAfter syn)
            te tolre we args1 none [] [] (markerIndices args1) with
        | error e =>
          rw [bindE_error]
          intro hc
          injection hc with h1
          exact mainPass_ne_nameErr research (builtinDefaults default_opt)
            (synonymsAfter syn) te tolre we args1 (markerIndices args1) none [] []
            (h1 ▸ hm)
        | ok pr2 =>
          obtain ⟨opt0, ws1⟩ := pr2
          simp only [hm, bindE_ok]
          have hb : ∃ b, dget (fillDefaults (builtinDefaults default_opt) opt0) "h"
              = some (.bool b) := by
            rcases mainPass_h_bool research (builtinDefaults default_opt)
                (synonymsAfter syn) te tolre we args1 (markerIndices args1) none
                [] opt0 [] ws1 false hschema hm (Or.inl rfl) with hnone | ⟨b, hsome⟩
            · exact ⟨false, fill_dget_of_not_dmem _ _ _ _ (by simp [dmem, hnone]) hschema⟩
            · exact ⟨b, by
                rw [fill_dget_of_dmem _ _ _ (by simp [dmem, hsome])]
                exact hsome⟩
          obtain ⟨b, hb⟩ := hb
          obtain ⟨o2, ho2, _⟩ := postProcess_ok_of_h_bool adv
            (fillDefaults (builtinDefaults default_opt) opt0) b hb
          rw [ho2, bindE_ok]
          simp
  · intro i nextKi tok htok h0 h1 hna hres
    rw [← htok]
    have hm : dmem (builtinDefaults default_opt) "h" = true := by simp [dmem, hschema]
    unfold stepOption
    rw [hres, if_pos hm, hschema]
    simp only [Option.getD_some, tyOf]
    unfold extractValue
    rw [if_pos (by simp), if_neg hna, if_pos rfl]
    rw [if_neg (htok ▸ h1), if_neg (htok ▸ h0), bindE_error]

/-- C10 witness: schema `{'k': 5}` (no `h`), input `-h map`: the result is
the boolean type error, not the advanced-help `NameError`; and on `-h 1`
the resolved `h` is the boolean true. -/
theorem c10_advanced_help_unreachable_witness :
    command_line_options noMatchSearch [("k", .int 5)] [] [] false [] true
      [("map", "advanced text")] ["-h", "map"] ≠ .error .nameErr
    ∧ stepOption noMatchSearch (builtinDefaults [("k", .int 5)]) (synonymsAfter [])
        false [] true ["-h", "map"] 0 none = .error (.boolBadValue "h" "map") := by
  have h := c10_advanced_help_unreachable noMatchSearch [("k", .int 5)] [] [] false []
    true [("map", "advanced text")] ["-h", "map"] (by decide)
  exact ⟨h.1, h.2.2 0 none "map" (by decide) (by decide) (by decide) (by decide) (by decide)⟩

/-! ### Integer print/parse round trip (for C6) -/

theorem digitChar_isDigit {d : Nat} (h : d < 10) : (digitChar d).isDigit = true := by
  interval_cases d <;> decide

theorem digitVal_digitChar {d : Nat} (h : d < 10) : digitVal (digitChar d) = d := by
  interval_cases d <;> decide

theorem digitsToNat_append_one (l : List Char) (c : Char) :
    digitsToNat (l ++ [c]) = digitsToNat l * 10 + digitVal c := by
  unfold digitsToNat
  rw [List.foldl_append]
  rfl

theorem natToDigitsAux_spec : ∀ fuel n, n < fuel →
    digitsToNat (natToDigitsAux fuel n) = n
    ∧ natToDigitsAux fuel n ≠ []
    ∧ ∀ c ∈ natToDigitsAux fuel n, c.isDigit = true := by
  intro fuel
  induction fuel with
  | zero => intro n h; omega
  | succ f ih =>
    intro n h
    by_cases h10 : n < 10
    · refine ⟨?_, ?_, ?_⟩
      · simp [natToDigitsAux, h10, digitsToNat, digitVal_digitChar h10]
      · simp [natToDigitsAux, h10]
      · intro c hc
        simp [natToDigitsAux, h10] at hc
        rw [hc]
        exact digitChar_isDigit h10
    · have hd : n / 10 < n := Nat.div_lt_self (by omega) (by omega)
      have hrec := ih (n / 10) (by omega)
      have hmod : n % 10 < 10 := Nat.mod_lt n (by omega)
      refine ⟨?_, ?_, ?_⟩
      · simp only [natToDigitsAux, h10, if_false]
        rw [digitsToNat_append_one, hrec.1, digitVal_digitChar hmod]
        omega
      · simp [natToDigitsAux, h10]
      · intro c hc
        simp only [natToDigitsAux, h10, if_false, List.mem_append, List.mem_singleton] at hc
        rcases hc with hc | hc
        · exact hrec.2.2 c hc
        · rw [hc]; exact digitChar_isDigit hmod

theorem isDigit_not_isWhitespace (c : Char) (h : c.isDigit = true) :
    c.isWhitespace = false := by
  cases hw : c.isWhitespace
  · rfl
  · exfalso
    simp [Char.isWhitespace] at hw
    rcases hw with ((h1 | h1) | h1) | h1 <;> subst h1 <;> exact absurd h (by decide)

theorem dropWhile_eq_self_of_none (p : Char → Bool) (l : List Char)
    (h : ∀ c ∈ l, p c = false) : l.dropWhile p = l := by
  cases l with
  | nil => rfl
  | cons c rest =>
    rw [List.dropWhile_cons, h c (by simp)]
    simp

theorem stripWS_of_no_ws (l : List Char) (h : ∀ c ∈ l, c.isWhitespace = false) :
    stripWS l = l := by
  unfold stripWS
  rw [dropWhile_eq_self_of_none _ _ h]
  rw [dropWhile_eq_self_of_none _ _ (fun c hc => h c (List.mem_reverse.mp hc))]
  exact List.reverse_reverse l

theorem stripWS_eq_self (l : List Char) (h : ∀ c ∈ l, c.isDigit = true) :
    stripWS l = l :=
  stripWS_of_no_ws l (fun c hc => isDigit_not_isWhitespace c (h c hc))

theorem isDigit_ne_sign (c : Char) (h : c.isDigit = true) : c ≠ '-' ∧ c ≠ '+' := by
  constructor <;> rintro rfl <;> exact absurd h (by decide)

theorem pyIntCast_digits (l : List Char) (hne : l ≠ [])
    (hd : ∀ c ∈ l, c.isDigit = true) :
    pyIntCast ⟨l⟩ = some (digitsToNat l : Int) := by
  unfold pyIntCast
  have hdata : (⟨l⟩ : String).data = l := rfl
  rw [hdata, stripWS_eq_self l hd]
  cases l with
  | nil => exact absurd rfl hne
  | cons c cs =>
    have hc := hd c (by simp)
    have hs := isDigit_ne_sign c hc
    split
    · rename_i ds heq
      injection heq with h1 _
      exact absurd h1 hs.1
    · rename_i ds heq
      injection heq with h1 _
      exact absurd h1 hs.2
    · rw [if_pos ⟨by simp, List.all_eq_true.mpr hd⟩]

theorem pyIntCast_natToken (m : Nat) : pyIntCast (natToken m) = some (m : Int) := by
  obtain ⟨h1, h2, h3⟩ := natToDigitsAux_spec (m+1) m (by omega)
  unfold natToken
  rw [pyIntCast_digits _ h2 h3, h1]

theorem pyIntCast_intToToken (n : Int) : pyIntCast (intToToken n) = some n := by
  cases n with
  | ofNat m => exact pyIntCast_natToken m
  | negSucc m =>
    obtain ⟨h1, h2, h3⟩ := natToDigitsAux_spec (m+1+1) (m+1) (by omega)
    unfold intToToken pyIntCast
    have hdata : ("-" ++ natToken (m+1)).data = '-' :: natToDigitsAux (m+1+1) (m+1) := by
      rw [String.data_append]
      rfl
    rw [hdata]
    have hstrip : stripWS ('-' :: natToDigitsAux (m+1+1) (m+1))
        = '-' :: natToDigitsAux (m+1+1) (m+1) := by
      refine stripWS_of_no_ws _ ?_
      intro c hc
      rcases List.mem_cons.mp hc with hc | hc
      · rw [hc]; decide
      · exact isDigit_not_isWhitespace c (h3 c hc)
    rw [hstrip]
    split
    · rename_i ds heq
      injection heq with _ h5
      subst h5
      rw [if_pos ⟨h2, List.all_eq_true.mpr h3⟩, h1]
      congr 1
    · rename_i ds heq
      injection heq with h4 _
      exact absurd h4 (by decide)
    · rename_i h4 h5
      exact absurd rfl (h4 (natToDigitsAux (m+1+1) (m+1)))

/-! ### Marker indices of a built token sequence (for C6) -/

theorem enumFrom_shift {α : Type} (l : List α) :
    ∀ n, l.enumFrom (n+1) = (l.enumFrom n).map (fun p => (p.1 + 1, p.2)) := by
  induction l with
  | nil => intro n; rfl
  | cons a t ih =>
    intro n
    show (n+1, a) :: t.enumFrom (n+2)
      = ((n, a) :: t.enumFrom (n+1)).map (fun p : Nat × α => (p.1 + 1, p.2))
    rw [List.map_cons, ih (n+1)]

theorem markerIndices_cons (x : String) (xs : List String) :
    markerIndices (x :: xs)
      = (if isMarker x then [0] else []) ++ (markerIndices xs).map (fun n => n + 1) := by
  unfold markerIndices
  show ((((0, x) :: xs.enumFrom 1).filter
      (fun p : Nat × String => isMarker p.2)).map (fun p : Nat × String => p.1)) = _
  rw [List.filter_cons,
    show xs.enumFrom 1 = xs.enum.map (fun p : Nat × String => (p.1 + 1, p.2)) from
      enumFrom_shift xs 0,
    List.filter_map]
  rw [show List.filter ((fun p : Nat × String => isMarker p.2)
        ∘ (fun p : Nat × String => (p.1 + 1, p.2))) xs.enum
      = List.filter (fun p : Nat × String => isMarker p.2) xs.enum from
    List.filter_congr (fun a _ => rfl)]
  by_cases hm : isMarker x
  · simp [hm, Function.comp_def]
  · simp [hm, Function.comp_def]

theorem buildTokens_length (asg : List (String × Value)) :
    (buildTokens asg).length = 2 * asg.length := by
  induction asg with
  | nil => rfl
  | cons p rest ih => simp [buildTokens, ih]; omega

theorem range_map_head (m : Nat) (f : Nat → Nat) (hm : m ≠ 0) :
    ((List.range m).map f).head? = some (f 0) := by
  obtain ⟨r, rfl⟩ : ∃ r, m = r + 1 := ⟨m - 1, by omega⟩
  rw [List.range_succ_eq_map]
  simp

theorem markerIndices_buildTokens (asg : List (String × Value))
    (hmark : ∀ p ∈ asg, isMarker ("-" ++ p.1) = true)
    (hval : ∀ p ∈ asg, isMarker (tokenOfValue p.2) = false) :
    markerIndices (buildTokens asg) = (List.range asg.length).map (fun j => 2 * j) := by
  induction asg with
  | nil => rfl
  | cons p rest ih =>
    have hm := hmark p (by simp)
    have hv := hval p (by simp)
    have ihr := ih (fun q hq => hmark q (by simp [hq])) (fun q hq => hval q (by simp [hq]))
    show markerIndices (("-" ++ p.1) :: tokenOfValue p.2 :: buildTokens rest) = _
    rw [markerIndices_cons, markerIndices_cons, ihr]
    simp only [hm, if_true, hv, Bool.false_eq_true, if_false, List.nil_append,
      List.map_map, List.length_cons]
    rw [List.range_succ_eq_map]
    simp only [List.map_cons, List.map_map, Nat.mul_zero, List.singleton_append]
    refine congrArg (fun l => 0 :: l) (List.map_congr_left ?_)
    intro j hj
    simp only [Function.comp_apply, Nat.succ_eq_add_one]
    omega

theorem range_map_getLastD (m : Nat) (f : Nat → Nat) (hm : m ≠ 0) :
    ((List.range m).map f).getLastD 0 = f (m - 1) := by
  obtain ⟨r, rfl⟩ : ∃ r, m = r + 1 := ⟨m - 1, by omega⟩
  rw [List.range_succ, List.map_append]
  simp

theorem pyAt_append_right (a b : List String) (j : Nat) :
    pyAt (a ++ b) (a.length + j) = pyAt b j := by
  unfold pyAt
  unfold List.getD
  rw [List.get?_eq_getElem?, List.get?_eq_getElem?,
    List.getElem?_append_right (Nat.le_add_right a.length j)]
  have h : a.length + j - a.length = j := by omega
  rw [h]

theorem isAlpha_ne_dash (c : Char) (h : c.isAlpha = true) : ¬ c = '-' := by
  rintro rfl
  exact absurd h (by decide)

theorem lstripDash_marker (k : String) (h : isMarker ("-" ++ k) = true) :
    lstripDash ("-" ++ k) = k := by
  have hdata : ("-" ++ k).data = '-' :: k.data := by
    rw [String.data_append]
    rfl
  unfold isMarker at h
  rw [hdata] at h
  match hk : k.data, h with
  | [], h => exact Bool.noConfusion h
  | c :: rest, h =>
    have h2 : (c.isAlpha && wordCount ('-' :: c :: rest) == 1) = true := h
    have halpha : c.isAlpha = true := by
      simp only [Bool.and_eq_true] at h2
      exact h2.1
    unfold lstripDash
    rw [hdata, hk]
    show (⟨List.dropWhile (fun c => decide (c = '-')) ('-' :: c :: rest)⟩ : String) = k
    rw [List.dropWhile_cons, List.dropWhile_cons]
    rw [if_pos (by decide),
      if_neg (by simp only [decide_eq_true_eq]; exact isAlpha_ne_dash c halpha)]
    rw [← hk]

theorem resolveKey_marker (syn : SynDict) (k : String)
    (hm : isMarker ("-" ++ k) = true) (hs : sget syn k = none) :
    resolveKey syn ("-" ++ k) = k := by
  unfold resolveKey
  show (match sget syn (lstripDash ("-" ++ k)) with
    | some c => c
    | none => lstripDash ("-" ++ k)) = k
  rw [lstripDash_marker k hm, hs]

/-- The extraction of a scalar assigned value from its own canonical
token always gives back the value. -/
theorem extractValue_tokenOf (args : List String) (i : Nat) (nextKi : Option Nat)
    (k : String) (v : Value)
    (hna : ¬ noArgAt args i nextKi)
    (htok : pyAt args (i+1) = tokenOfValue v)
    (hnl : tyOf v ≠ .list)
    (hfl : tyOf v = .float → isFloatLit (tokenOfValue v) = true)
    (hint : ∀ n, v = .int n → pyIntCast (tokenOfValue v) = some n) :
    extractValue args i nextKi k (some (tyOf v)) = .ok v := by
  unfold extractValue
  rw [if_pos (by simp [hnl]), if_neg hna]
  cases v with
  | bool b =>
    cases b with
    | true => simp [tyOf, htok, tokenOfValue]
    | false => simp [tyOf, htok, tokenOfValue]
  | int n =>
    rw [if_neg (by simp [tyOf])]
    show (match pyIntCast (pyAt args (i+1)) with
      | some n => Except.ok (Value.int n)
      | none => Except.error (PErr.castFail k (pyAt args (i+1)))) = Except.ok (Value.int n)
    rw [htok, hint n rfl]
  | float tok =>
    rw [if_neg (by simp [tyOf])]
    show (if isFloatLit (pyAt args (i+1)) = true then Except.ok (Value.float (pyAt args (i+1)))
      else Except.error (PErr.castFail k (pyAt args (i+1)))) = Except.ok (Value.float tok)
    rw [htok, if_pos (hfl rfl)]
    rfl
  | str sv =>
    rw [if_neg (by simp [tyOf])]
    show Except.ok (Value.str (pyAt args (i+1))) = Except.ok (Value.str sv)
    rw [htok]
    rfl
  | list xs => exact absurd rfl hnl

/-- Running the main pass over the canonical token sequence of a
well-formed scalar assignment binds exactly the assigned values. -/
theorem mainPass_buildTokens (research : Bool → String → String → Bool)
    (schema : Dict) (syn : SynDict) (te : Bool) (tolre : List String) (we : Bool) :
    ∀ (asg : List (String × Value)) (pre : List String) (prev : Option (Nat × String))
      (opt : Dict) (ws : List Warning),
      (∀ p ∈ asg, isMarker ("-" ++ p.1) = true) →
      (∀ p ∈ asg, isMarker (tokenOfValue p.2) = false) →
      (∀ p ∈ asg, sget syn p.1 = none) →
      (∀ p ∈ asg, ∃ d, dget schema p.1 = some d ∧ tyOf d = tyOf p.2) →
      (∀ p ∈ asg, tyOf p.2 ≠ .list) →
      (∀ p ∈ asg, tyOf p.2 = .float → isFloatLit (tokenOfValue p.2) = true) →
      (asg.map (fun p => p.1)).Nodup →
      (∀ q : Nat × String, prev = some q → ¬ (q.1 + 1 < pre.length - 1)) →
      ∃ opt2 ws2,
        mainPassAux research schema syn te tolre we (pre ++ buildTokens asg) prev opt ws
          ((markerIndices (buildTokens asg)).map (fun n => n + pre.length))
          = .ok (opt2, ws2)
        ∧ ∀ k, dget opt2 k
            = (match dget asg k with | some v => some v | none => dget opt k) := by
  intro asg
  induction asg with
  | nil =>
    intro pre prev opt ws _ _ _ _ _ _ _ _
    refine ⟨opt, ws, ?_, ?_⟩
    · show mainPassAux research schema syn te tolre we (pre ++ []) prev opt ws [] = _
      rfl
    · intro k
      rfl
  | cons p rest ih =>
    intro pre prev opt ws hmark hval hsyn hty hnl hfl hnd hprev
    have hm := hmark p (by simp)
    have hv := hval p (by simp)
    have hargs : pre ++ buildTokens (p :: rest)
        = (pre ++ ["-" ++ p.1, tokenOfValue p.2]) ++ buildTokens rest := by
      show pre ++ ("-" ++ p.1) :: tokenOfValue p.2 :: buildTokens rest = _
      simp
    have hkis : (markerIndices (buildTokens (p :: rest))).map (fun n => n + pre.length)
        = pre.length :: (markerIndices (buildTokens rest)).map
            (fun n => n + (pre.length + 2)) := by
      show (markerIndices (("-" ++ p.1) :: tokenOfValue p.2 :: buildTokens rest)).map _ = _
      rw [markerIndices_cons, markerIndices_cons]
      simp only [hm, if_true, hv, Bool.false_eq_true, if_false, List.nil_append,
        List.map_map, List.map_append, List.map_cons, List.map_nil, List.singleton_append,
        Nat.zero_add]
      refine congrArg (fun l => pre.length :: l) (List.map_congr_left ?_)
      intro n hn
      simp only [Function.comp_apply]
      omega
    have hmk : pyAt (pre ++ buildTokens (p :: rest)) pre.length = "-" ++ p.1 := by
      have := pyAt_append_right pre (buildTokens (p :: rest)) 0
      simpa using this
    have htv : pyAt (pre ++ buildTokens (p :: rest)) (pre.length + 1)
        = tokenOfValue p.2 := by
      have := pyAt_append_right pre (buildTokens (p :: rest)) 1
      simpa [buildTokens] using this
    have hres : resolveKey syn (pyAt (pre ++ buildTokens (p :: rest)) pre.length) = p.1 := by
      rw [hmk]
      exact resolveKey_marker syn p.1 hm (hsyn p (by simp))
    obtain ⟨d, hd, htyd⟩ := hty p (by simp)
    have hdm : dmem schema p.1 = true := by simp [dmem, hd]
    have hnext : (((markerIndices (buildTokens rest)).map
        (fun n => n + (pre.length + 2))).head?) = none
        ∨ (((markerIndices (buildTokens rest)).map
        (fun n => n + (pre.length + 2))).head?) = some (pre.length + 2) := by
      cases rest with
      | nil => exact Or.inl rfl
      | cons q rest2 =>
        right
        rw [List.head?_map]
        show ((markerIndices (("-" ++ q.1) :: tokenOfValue q.2 :: buildTokens rest2)).head?).map _
          = _
        rw [markerIndices_cons]
        simp [hmark q (by simp)]
    have hlen : (pre ++ buildTokens (p :: rest)).length
        = pre.length + 2 + (buildTokens rest).length := by
      show (pre ++ ("-" ++ p.1) :: tokenOfValue p.2 :: buildTokens rest).length = _
      simp
      omega
    have hna : ¬ noArgAt (pre ++ buildTokens (p :: rest)) pre.length
        (((markerIndices (buildTokens rest)).map
          (fun n => n + (pre.length + 2))).head?) := by
      rcases hnext with hn2 | hn2 <;> rw [hn2] <;> intro hc
      · rcases hc with hc | ⟨_, hc⟩
        · exact absurd hc (by simp)
        · omega
      · rcases hc with hc | ⟨hc, _⟩
        · have : pre.length + 2 = pre.length + 1 := by injection hc
          omega
        · exact absurd hc (by simp)
    have hex : extractValue (pre ++ buildTokens (p :: rest)) pre.length
        (((markerIndices (buildTokens rest)).map
          (fun n => n + (pre.length + 2))).head?) p.1 (some (tyOf p.2)) = .ok p.2 := by
      refine extractValue_tokenOf _ _ _ _ _ hna htv (hnl p (by simp)) (hfl p (by simp)) ?_
      intro n hn
      rw [hn]
      exact pyIntCast_intToToken n
    have hstep : stepOption research schema syn te tolre we
        (pre ++ buildTokens (p :: rest)) pre.length
        (((markerIndices (buildTokens rest)).map
          (fun n => n + (pre.length + 2))).head?) = .ok (p.1, p.2, []) := by
      unfold stepOption
      rw [hres, if_pos hdm, hd]
      simp only [Option.getD_some, htyd]
      rw [hex, bindE_ok]
    have hgap : gapExtra schema te (pre ++ buildTokens (p :: rest)) prev pre.length
        = .ok [] := by
      cases prev with
      | none => rfl
      | some q =>
        obtain ⟨q1, q2⟩ := q
        show (if q1 + 1 < pre.length - 1 ∧ isListTy (dget schema q2) = false
          then _ else Except.ok []) = Except.ok []
        rw [if_neg (fun hc => hprev (q1, q2) rfl hc.1)]
    rw [hkis]
    show ∃ opt2 ws2,
      (bindE (gapExtra schema te (pre ++ buildTokens (p :: rest)) prev pre.length) fun gw =>
        bindE (stepOption research schema syn te tolre we (pre ++ buildTokens (p :: rest))
          pre.length (((markerIndices (buildTokens rest)).map
            (fun n => n + (pre.length + 2))).head?)) fun r =>
          mainPassAux research schema syn te tolre we (pre ++ buildTokens (p :: rest))
            (some (pre.length, r.1)) (dset opt r.1 r.2.1) (ws ++ gw ++ r.2.2)
            ((markerIndices (buildTokens rest)).map (fun n => n + (pre.length + 2))))
      = .ok (opt2, ws2) ∧ _
    rw [hgap, bindE_ok, hstep, bindE_ok]
    have hprev2 : ∀ q : Nat × String, some (pre.length, p.1) = some q →
        ¬ (q.1 + 1 < (pre ++ ["-" ++ p.1, tokenOfValue p.2]).length - 1) := by
      intro q hq
      injection hq with hq1
      rw [← hq1]
      simp
    have hndc := List.nodup_cons.mp (by rw [List.map_cons] at hnd; exact hnd)
    obtain ⟨opt2, ws2, hrun, hchar⟩ := ih (pre ++ ["-" ++ p.1, tokenOfValue p.2])
      (some (pre.length, p.1)) (dset opt p.1 p.2) (ws ++ [] ++ [])
      (fun q hq => hmark q (by simp [hq])) (fun q hq => hval q (by simp [hq]))
      (fun q hq => hsyn q (by simp [hq])) (fun q hq => hty q (by simp [hq]))
      (fun q hq => hnl q (by simp [hq])) (fun q hq => hfl q (by simp [hq]))
      hndc.2
      hprev2
    refine ⟨opt2, ws2, ?_, ?_⟩
    · rw [hargs]
      have hlenpre : (pre ++ ["-" ++ p.1, tokenOfValue p.2]).length = pre.length + 2 := by
        simp
      rw [← hlenpre]
      exact hrun
    · intro k
      rw [hchar k]
      by_cases hk : p.1 = k
      · subst hk
        have hnotin : dget rest p.1 = none := by
          refine dget_none_of_not_dmem ?_
          rw [dmem_eq_mem_dkeys, decide_eq_false_iff_not]
          simpa [dkeys] using hndc.1
        rw [hnotin]
        show dget (dset opt p.1 p.2) p.1 = match dget (p :: rest) p.1 with
          | some v => some v | none => dget opt p.1
        rw [dget_dset_self, dget_cons, if_pos rfl]
      · show (match dget rest k with | some v => some v | none => dget (dset opt p.1 p.2) k)
          = match dget (p :: rest) k with | some v => some v | none => dget opt k
        rw [dget_cons, if_neg hk, dget_dset_ne _ _ _ _ (fun hc => hk hc.symm)]

/-- The canonical token sequence of an assignment has no positional
region: it starts with a marker and ends right after the last value
slot. -/
theorem computeRegion_buildTokens (schema : Dict) (asg : List (String × Value))
    (hmark : ∀ p ∈ asg, isMarker ("-" ++ p.1) = true)
    (hval : ∀ p ∈ asg, isMarker (tokenOfValue p.2) = false) :
    computeRegion schema (buildTokens asg) (markerIndices (buildTokens asg))
      = .ok { whereAt := .noPos, fromHere := 0, upTo := none } := by
  rw [markerIndices_buildTokens asg hmark hval]
  cases asg with
  | nil => rfl
  | cons p rest =>
    have hlen : (buildTokens (p :: rest)).length = 2 * (p :: rest).length :=
      buildTokens_length _
    have hm0 : (p :: rest).length ≠ 0 := by simp
    have hlast := range_map_getLastD (p :: rest).length (fun j => 2 * j) hm0
    have hhead := range_map_head (p :: rest).length (fun j => 2 * j) hm0
    unfold computeRegion
    rw [if_pos ?hc1]
    case hc1 =>
      refine ⟨by rw [hlen]; simp, ?_⟩
      intro hc
      rw [hc] at hhead
      exact Option.noConfusion hhead
    rw [if_neg ?hc2]
    case hc2 =>
      intro hc
      have h1 := hc.1
      rw [hlast, hlen] at h1
      simp only [List.length_cons] at h1
      omega
    rw [if_neg ?hc3]
    case hc3 =>
      intro hc
      refine hc.2 ?_
      rw [hhead]

theorem normalizeArgs_buildTokens (schema : Dict) (te : Bool) (posKeys : List String)
    (asg : List (String × Value))
    (hmark : ∀ p ∈ asg, isMarker ("-" ++ p.1) = true)
    (hval : ∀ p ∈ asg, isMarker (tokenOfValue p.2) = false) :
    normalizeArgs schema te posKeys (buildTokens asg) = .ok (buildTokens asg, []) := by
  unfold normalizeArgs
  rw [computeRegion_buildTokens schema asg hmark hval, bindE_ok]
  rfl

/-- A shallow copy of a scalar or string-list value has the same
content. -/
theorem pycopy_eq (v : Value) : pycopy v = v := by
  cases v <;> rfl

/-- When the caller's schema defines the help key itself, line 158 keeps
its entry: the builtin-augmented schema looks it up unchanged. -/
theorem dget_builtin_h_mem (d : Dict) (v : Value) (h : dget d "h" = some v) :
    dget (builtinDefaults d) "h" = some v := by
  unfold builtinDefaults
  rw [dget_addBuiltin_ne _ _ _ (by decide)]
  unfold addBuiltin
  rw [if_pos (by unfold dmem; rw [h]; rfl)]
  exact h

/-- C6, corrected.  Parsing the canonical token sequence `-k1 v1 -k2 v2 ...`
built from a scalar assignment reproduces the assignment, provided each
key forms a well-formed marker not shadowed by a synonym, no value's
literal token form is itself an option marker, float values carry valid
float literals, and the help flag's effective value (its assigned value,
or the schema default when the assignment omits it) is not truthy. -/
theorem c6_round_trip (research : Bool → String → String → Bool)
    (default_opt : Dict) (positional_keys : List String) (synonyms : SynDict)
    (te we : Bool) (tolre : List String) (adv : List (String × String))
    (asg : List (String × Value))
    (hmark : ∀ p ∈ asg, isMarker ("-" ++ p.1) = true)
    (hval : ∀ p ∈ asg, isMarker (tokenOfValue p.2) = false)
    (hsyn : ∀ p ∈ asg, sget (synonymsAfter synonyms) p.1 = none)
    (hty : ∀ p ∈ asg, ∃ d, dget (builtinDefaults default_opt) p.1 = some d
        ∧ tyOf d = tyOf p.2)
    (hnl : ∀ p ∈ asg, tyOf p.2 ≠ .list)
    (hfl : ∀ p ∈ asg, tyOf p.2 = .float → isFloatLit (tokenOfValue p.2) = true)
    (hnd : (asg.map (fun p => p.1)).Nodup)
    (hpk : ∀ pk ∈ positional_keys, dmem (builtinDefaults default_opt) pk = true)
    (hhb : ∀ v, dget asg "h" = some v → pyTruthy v = false)
    (hhd : dget asg "h" = none →
      ∀ d, dget default_opt "h" = some d → pyTruthy d = false) :
    ∃ o, command_line_options research default_opt positional_keys synonyms
        te tolre we adv (buildTokens asg) = .ok o
      ∧ o.exited = false
      ∧ ∀ k v, dget asg k = some v → dget o.opt k = some v := by
  have hmiss : positional_keys.filter
      (fun pk => !dmem (builtinDefaults default_opt) pk) = [] := by
    rw [List.filter_eq_nil_iff]
    intro pk hpkm
    simp [hpk pk hpkm]
  have hnorm := normalizeArgs_buildTokens (builtinDefaults default_opt) te
    positional_keys asg hmark hval
  obtain ⟨opt2, ws2, hrun, hchar⟩ := mainPass_buildTokens research
    (builtinDefaults default_opt) (synonymsAfter synonyms) te tolre we
    asg [] none [] [] hmark hval hsyn hty hnl hfl hnd
    (fun q hq => Option.noConfusion hq)
  have hmap : (markerIndices (buildTokens asg)).map
      (fun n => n + ([] : List String).length) = markerIndices (buildTokens asg) := by
    simp
  have hrun2 : mainPassAux research (builtinDefaults default_opt)
      (synonymsAfter synonyms) te tolre we (buildTokens asg) none [] []
      (markerIndices (buildTokens asg)) = .ok (opt2, ws2) := by
    rw [← hmap]
    exact hrun
  have hchar0 : ∀ k, dget opt2 k = dget asg k := by
    intro k
    rw [hchar k]
    cases dget asg k <;> rfl
  have hhfill : truthyAt (fillDefaults (builtinDefaults default_opt) opt2) "h"
      = false := by
    cases hcase : dget asg "h" with
    | some v =>
      have hv0 := hhb v hcase
      have hdm : dmem opt2 "h" = true := by
        unfold dmem
        rw [hchar0, hcase]
        rfl
      unfold truthyAt
      rw [fill_dget_of_dmem _ _ _ hdm, hchar0, hcase]
      exact hv0
    | none =>
      have hdm : dmem opt2 "h" = false := by
        unfold dmem
        rw [hchar0, hcase]
        rfl
      cases hd : dget default_opt "h" with
      | some d0 =>
        have hsh : dget (builtinDefaults default_opt) "h" = some d0 :=
          dget_builtin_h_mem default_opt d0 hd
        unfold truthyAt
        rw [fill_dget_of_not_dmem _ _ _ _ hdm hsh]
        show pyTruthy (pycopy d0) = false
        rw [pycopy_eq]
        exact hhd hcase d0 hd
      | none =>
        have hm : dmem default_opt "h" = false := by
          unfold dmem
          rw [hd]
          rfl
        have hsh : dget (builtinDefaults default_opt) "h" = some (.bool false) :=
          dget_builtin_h default_opt hm
        unfold truthyAt
        rw [fill_dget_of_not_dmem _ _ _ _ hdm hsh]
        rfl
  have hpost : postProcess adv (fillDefaults (builtinDefaults default_opt) opt2)
      = .ok { opt := fillDefaults (builtinDefaults default_opt) opt2, warnings := [],
              printedHelp := false,
              printedOpt := truthyAt (fillDefaults (builtinDefaults default_opt) opt2)
                "print_opt",
              exited := false } := by
    unfold postProcess
    rw [if_neg (by rw [hhfill]; simp)]
  unfold command_line_options
  show ∃ o, (if positional_keys.filter
        (fun pk => !dmem (builtinDefaults default_opt) pk) ≠ []
      then Except.error (PErr.badPositionalKeys (positional_keys.filter
        (fun pk => !dmem (builtinDefaults default_opt) pk)))
      else bindE (normalizeArgs (builtinDefaults default_opt) te positional_keys
          (buildTokens asg)) (fun pr =>
        bindE (mainPassAux research (builtinDefaults default_opt)
            (synonymsAfter synonyms) te tolre we pr.1 none [] []
            (markerIndices pr.1)) (fun pr2 =>
          bindE (postProcess adv (fillDefaults (builtinDefaults default_opt) pr2.1))
            (fun out => .ok { out with warnings := pr.2 ++ pr2.2 }))))
      = .ok o ∧ o.exited = false ∧ ∀ k v, dget asg k = some v → dget o.opt k = some v
  rw [if_neg (by rw [hmiss]; simp), hnorm]
  simp only [bindE_ok]
  rw [hrun2]
  simp only [bindE_ok]
  rw [hpost]
  simp only [bindE_ok]
  refine ⟨_, rfl, rfl, ?_⟩
  intro k v hkv
  show dget (fillDefaults (builtinDefaults default_opt) opt2) k = some v
  have hdm : dmem opt2 k = true := by
    unfold dmem
    rw [hchar0, hkv]
    rfl
  rw [fill_dget_of_dmem _ _ _ hdm, hchar0, hkv]

/-- C6 counterexample to the unconditional claim: for the schema
`{'a': 'x'}` and the scalar assignment `a := "-a"`, the built token
sequence is `-a -a`; its second token is itself an option marker, so the
parse fails with a missing-argument error instead of reproducing the
assignment. -/
theorem c6_counterexample :
    command_line_options noMatchSearch [("a", Value.str "x")] [] [] false [] false []
      (buildTokens [("a", Value.str "-a")])
      = .error (PErr.missingArg "a") := by decide

theorem c6_round_trip_witness :
    ∃ o, command_line_options noMatchSearch [("h", Value.bool false), ("k", Value.int 7)]
        [] [] false [] false [] (buildTokens [("k", Value.int 42)]) = .ok o
      ∧ o.exited = false
      ∧ ∀ k v, dget [("k", Value.int 42)] k = some v → dget o.opt k = some v :=
  c6_round_trip noMatchSearch [("h", Value.bool false), ("k", Value.int 7)] [] []
    false false [] []
    [("k", Value.int 42)]
    (by decide) (by decide) (by decide)
    (by
      intro p hp
      rw [List.mem_singleton] at hp
      subst hp
      exact ⟨Value.int 7, by decide, by decide⟩)
    (by decide) (by decide) (by decide)
    (by intro pk hpkm; simp at hpkm)
    (by
      intro v hv
      rw [show dget [("k", Value.int 42)] "h" = (none : Option Value) from by decide] at hv
      exact Option.noConfusion hv)
    (by
      intro _ d hd
      rw [show dget [("h", Value.bool false), ("k", Value.int 7)] "h"
        = some (Value.bool false) from by decide] at hd
      injection hd with h1
      exact h1 ▸ rfl)

/-- Value extraction cannot fail when the claim's per-type cast
precondition holds. -/
theorem extractValue_total (args : List String) (i : Nat) (nextKi : Option Nat)
    (k : String) (ty : PyTy) (h : argOKb args i nextKi ty = true) :
    ∃ v, extractValue args i nextKi k (some ty) = .ok v := by
  cases ty with
  | list =>
    refine ⟨Value.list (pySlice args (i+1) (some (nextKi.getD args.length))), ?_⟩
    unfold extractValue
    rw [if_neg (by simp)]
  | bool =>
    unfold extractValue
    rw [if_pos (by decide)]
    by_cases hna : noArgAt args i nextKi
    · rw [if_pos hna, if_pos (Or.inl rfl)]
      exact ⟨_, rfl⟩
    · rw [if_neg hna, if_pos rfl]
      by_cases h1 : pyAt args (i+1) = "1"
      · rw [if_pos h1]
        exact ⟨_, rfl⟩
      · have h0 : pyAt args (i+1) = "0" := by
          simp only [argOKb, Bool.or_eq_true, decide_eq_true_eq, beq_iff_eq] at h
          tauto
        rw [if_neg h1, if_pos h0]
        exact ⟨_, rfl⟩
  | int =>
    have hna : ¬ noArgAt args i nextKi := by
      intro hc
      simp [argOKb, hc] at h
    have hsome : (pyIntCast (pyAt args (i+1))).isSome = true := by
      simp only [argOKb, Bool.and_eq_true] at h
      exact h.2
    obtain ⟨n, hn⟩ := Option.isSome_iff_exists.mp hsome
    unfold extractValue
    rw [if_pos (by decide), if_neg hna, if_neg (by decide)]
    show ∃ v, (match pyIntCast (pyAt args (i + 1)) with
      | some n => Except.ok (Value.int n)
      | none => Except.error (PErr.castFail k (pyAt args (i + 1)))) = Except.ok v
    rw [hn]
    exact ⟨_, rfl⟩
  | float =>
    have hna : ¬ noArgAt args i nextKi := by
      intro hc
      simp [argOKb, hc] at h
    have hfl : isFloatLit (pyAt args (i+1)) = true := by
      simp only [argOKb, Bool.and_eq_true] at h
      exact h.2
    unfold extractValue
    rw [if_pos (by decide), if_neg hna, if_neg (by decide)]
    show ∃ v, (if isFloatLit (pyAt args (i + 1)) = true
      then Except.ok (Value.float (pyAt args (i + 1)))
      else Except.error (PErr.castFail k (pyAt args (i + 1)))) = Except.ok v
    rw [if_pos hfl]
    exact ⟨_, rfl⟩
  | str =>
    have hna : ¬ noArgAt args i nextKi := by
      intro hc
      simp [argOKb, hc] at h
    unfold extractValue
    rw [if_pos (by decide), if_neg hna, if_neg (by decide)]
    exact ⟨_, rfl⟩

/-- Under the chain precondition the main pass is total: it reaches the
end of the marker list without raising. -/
theorem mainPass_total (research : Bool → String → String → Bool) (schema : Dict)
    (syn : SynDict) (te : Bool) (tolre : List String) (we : Bool)
    (args : List String) :
    ∀ (kis : List Nat) (prev : Option (Nat × String)) (opt : Dict) (ws : List Warning),
      chainOK schema syn args kis prev = true →
      ∃ opt2 ws2, mainPassAux research schema syn te tolre we args prev opt ws kis
        = .ok (opt2, ws2) := by
  intro kis
  induction kis with
  | nil => exact fun prev opt ws _ => ⟨opt, ws, rfl⟩
  | cons i rest ih =>
    intro prev opt ws hch
    simp only [chainOK, Bool.and_eq_true] at hch
    obtain ⟨⟨hgapc, hmk⟩, hrest⟩ := hch
    unfold markerOK at hmk
    simp only [Bool.and_eq_true] at hmk
    have hdm : dmem schema (resolveKey syn (pyAt args i)) = true := hmk.1
    have harg : argOKb args i rest.head?
        (tyOf ((dget schema (resolveKey syn (pyAt args i))).getD (.bool false)))
        = true := hmk.2
    obtain ⟨v, hv⟩ := extractValue_total args i rest.head?
      (resolveKey syn (pyAt args i)) _ harg
    have hstep : stepOption research schema syn te tolre we args i rest.head?
        = .ok (resolveKey syn (pyAt args i), v, []) := by
      unfold stepOption
      rw [if_pos hdm, hv, bindE_ok]
    obtain ⟨gw, hgapeq⟩ : ∃ gw, gapExtra schema te args prev i = .ok gw := by
      cases prev with
      | none => exact ⟨[], rfl⟩
      | some q =>
        obtain ⟨q1, q2⟩ := q
        have hg2 : (!decide (q1 + 1 < i - 1) || isListTy (dget schema q2)) = true := hgapc
        refine ⟨[], ?_⟩
        show (if q1 + 1 < i - 1 ∧ isListTy (dget schema q2) = false
          then _ else Except.ok []) = Except.ok []
        rw [if_neg (fun hc => by simp [hc.1, hc.2] at hg2)]
    obtain ⟨opt2, ws2, hrun⟩ := ih (some (i, resolveKey syn (pyAt args i)))
      (dset opt (resolveKey syn (pyAt args i)) v) (ws ++ gw ++ []) hrest
    refine ⟨opt2, ws2, ?_⟩
    simp only [mainPassAux]
    simp only [hgapeq, hstep, bindE_ok]
    exact hrun

/-- C1, corrected.  When the positional keys are known, the positional
phase succeeds (in particular positional tokens are not split across the
before and after regions), every marker of the normalized sequence names
a known key with a successfully-casting argument, no non-list option
leaves extra tokens before the next marker, and the help flag is not set
(not given on the command line, and falsy by schema default if the
schema defines it), the parse is total: it returns a mapping without
exiting, every schema key (builtins included) is present in it exactly
once, and every key not given on the command line is bound to a copy of
its schema default. -/
theorem c1_parse (research : Bool → String → String → Bool)
    (default_opt : Dict) (positional_keys : List String) (synonyms : SynDict)
    (te we : Bool) (tolre : List String) (adv : List (String × String))
    (arglist args2 : List String) (ws1 : List Warning)
    (hpk : ∀ pk ∈ positional_keys, dmem (builtinDefaults default_opt) pk = true)
    (hnorm : normalizeArgs (builtinDefaults default_opt) te positional_keys arglist
      = .ok (args2, ws1))
    (hchain : chainOK (builtinDefaults default_opt) (synonymsAfter synonyms) args2
      (markerIndices args2) none = true)
    (hhd : ∀ d, dget default_opt "h" = some d → pyTruthy d = false)
    (hhr : "h" ∉ resolvedKeys (synonymsAfter synonyms) args2 (markerIndices args2)) :
    ∃ o, command_line_options research default_opt positional_keys synonyms
        te tolre we adv arglist = .ok o
      ∧ o.exited = false
      ∧ (∀ k, dmem (builtinDefaults default_opt) k = true → (dkeys o.opt).count k = 1)
      ∧ (∀ k d, dget (builtinDefaults default_opt) k = some d →
          k ∉ resolvedKeys (synonymsAfter synonyms) args2 (markerIndices args2) →
          dget o.opt k = some (pycopy d)) := by
  have hmiss : positional_keys.filter
      (fun pk => !dmem (builtinDefaults default_opt) pk) = [] := by
    rw [List.filter_eq_nil_iff]
    intro pk hpkm
    simp [hpk pk hpkm]
  obtain ⟨opt2, ws2, hrun⟩ := mainPass_total research (builtinDefaults default_opt)
    (synonymsAfter synonyms) te tolre we args2 (markerIndices args2) none [] [] hchain
  have hng : dget opt2 "h" = dget ([] : Dict) "h" :=
    mainPass_not_given _ _ _ _ _ _ _ _ _ _ _ _ _ _ hrun hhr
  have hdmh : dmem opt2 "h" = false := by
    unfold dmem
    rw [hng]
    rfl
  have hhfill : truthyAt (fillDefaults (builtinDefaults default_opt) opt2) "h"
      = false := by
    cases hd : dget default_opt "h" with
    | some d0 =>
      have hsh : dget (builtinDefaults default_opt) "h" = some d0 :=
        dget_builtin_h_mem default_opt d0 hd
      unfold truthyAt
      rw [fill_dget_of_not_dmem _ _ _ _ hdmh hsh]
      show pyTruthy (pycopy d0) = false
      rw [pycopy_eq]
      exact hhd d0 hd
    | none =>
      have hm : dmem default_opt "h" = false := by
        unfold dmem
        rw [hd]
        rfl
      have hsh : dget (builtinDefaults default_opt) "h" = some (.bool false) :=
        dget_builtin_h default_opt hm
      unfold truthyAt
      rw [fill_dget_of_not_dmem _ _ _ _ hdmh hsh]
      rfl
  have hpost : postProcess adv (fillDefaults (builtinDefaults default_opt) opt2)
      = .ok { opt := fillDefaults (builtinDefaults default_opt) opt2, warnings := [],
              printedHelp := false,
              printedOpt := truthyAt (fillDefaults (builtinDefaults default_opt) opt2)
                "print_opt",
              exited := false } := by
    unfold postProcess
    rw [if_neg (by rw [hhfill]; simp)]
  have hnodup2 : (dkeys (fillDefaults (builtinDefaults default_opt) opt2)).Nodup :=
    fill_nodup _ _ (mainPass_nodup _ _ _ _ _ _ _ _ _ _ _ _ _ hrun (by simp [dkeys]))
  unfold command_line_options
  show ∃ o, (if positional_keys.filter
        (fun pk => !dmem (builtinDefaults default_opt) pk) ≠ []
      then Except.error (PErr.badPositionalKeys (positional_keys.filter
        (fun pk => !dmem (builtinDefaults default_opt) pk)))
      else bindE (normalizeArgs (builtinDefaults default_opt) te positional_keys
          arglist) (fun pr =>
        bindE (mainPassAux research (builtinDefaults default_opt)
            (synonymsAfter synonyms) te tolre we pr.1 none [] []
            (markerIndices pr.1)) (fun pr2 =>
          bindE (postProcess adv (fillDefaults (builtinDefaults default_opt) pr2.1))
            (fun out => .ok { out with warnings := pr.2 ++ pr2.2 }))))
      = .ok o ∧ o.exited = false
      ∧ (∀ k, dmem (builtinDefaults default_opt) k = true → (dkeys o.opt).count k = 1)
      ∧ (∀ k d, dget (builtinDefaults default_opt) k = some d →
          k ∉ resolvedKeys (synonymsAfter synonyms) args2 (markerIndices args2) →
          dget o.opt k = some (pycopy d))
  rw [if_neg (by rw [hmiss]; simp), hnorm]
  simp only [bindE_ok]
  rw [hrun]
  simp only [bindE_ok]
  rw [hpost]
  simp only [bindE_ok]
  refine ⟨_, rfl, rfl, ?_, ?_⟩
  · intro k hk
    show (dkeys (fillDefaults (builtinDefaults default_opt) opt2)).count k = 1
    have hmem : dmem (fillDefaults (builtinDefaults default_opt) opt2) k = true := by
      rw [fill_dmem]
      simp [hk]
    have hmem2 : k ∈ dkeys (fillDefaults (builtinDefaults default_opt) opt2) := by
      rw [dmem_eq_mem_dkeys] at hmem
      exact of_decide_eq_true hmem
    exact List.count_eq_one_of_mem hnodup2 hmem2
  · intro k d hd hkr
    show dget (fillDefaults (builtinDefaults default_opt) opt2) k = some (pycopy d)
    have hng2 : dget opt2 k = dget ([] : Dict) k :=
      mainPass_not_given _ _ _ _ _ _ _ _ _ _ _ _ _ _ hrun hkr
    have hdm2 : dmem opt2 k = false := by
      unfold dmem
      rw [hng2]
      rfl
    exact fill_dget_of_not_dmem _ _ _ _ hdm2 hd

/-- C1 counterexample to the claim as stated: for the schema
`{'k': False, 'i': '', 'o': ''}` with positional keys `i, o` and input
`in -k 1 out`, every precondition the claim lists holds (all keys known,
the single cast succeeds, the positional tokens map onto the positional
keys, help unset), yet the call raises the both-regions error instead of
returning a mapping, because the positional tokens are split around the
option. -/
theorem c1_counterexample :
    command_line_options noMatchSearch
      [("k", Value.bool false), ("i", Value.str ""), ("o", Value.str "")]
      ["i", "o"] [] false [] false [] ["in", "-k", "1", "out"]
      = .error PErr.bothBeforeAfter := by decide

theorem c1_parse_witness :
    ∃ o, command_line_options noMatchSearch
        [("h", Value.bool false), ("k", Value.bool false)] [] [] false []
        false [] ["-k", "1"] = .ok o
      ∧ o.exited = false
      ∧ (∀ k, dmem (builtinDefaults [("h", Value.bool false), ("k", Value.bool false)])
          k = true → (dkeys o.opt).count k = 1)
      ∧ (∀ k d, dget (builtinDefaults [("h", Value.bool false), ("k", Value.bool false)])
          k = some d →
          k ∉ resolvedKeys (synonymsAfter []) ["-k", "1"] (markerIndices ["-k", "1"]) →
          dget o.opt k = some (pycopy d)) :=
  c1_parse noMatchSearch [("h", Value.bool false), ("k", Value.bool false)] [] []
    false false [] []
    ["-k", "1"] ["-k", "1"] []
    (by intro pk hpkm; simp at hpkm)
    (by decide) (by decide)
    (by
      intro d hd
      rw [show dget [("h", Value.bool false), ("k", Value.bool false)] "h"
        = some (Value.bool false) from by decide] at hd
      injection hd with h1
      exact h1 ▸ rfl)
    (by decide)

end Easyterm
